import Mathlib

/-!
Verification development for the vite-plugin-cid rename-and-rewrite engine
(src/index.ts).  The engine is shallowly embedded: strings are lists of
characters, the rollup output bundle is an insertion-ordered association
list, and the two plugin hooks (generateBundle / writeBundle) are total
functions.  The content digest (src/cid.ts, not part of the embedded
sources) is a parameter `digest : Content → Str`; per the spec it is a pure
deterministic function from bytes to a filesystem-safe identifier.
-/

/-- Strings are modelled as lists of characters. -/
abbrev Str := List Char

/-- Character constants used by the embedding (written via code points to
keep string literals free of structural characters). -/
def slashC : Char := '/'
def dotC : Char := '.'
def quoteC : Char := Char.ofNat 34
def lbraceC : Char := Char.ofNat 123
def rbraceC : Char := Char.ofNat 125
def colonC : Char := ':'
def commaC : Char := ','
def nlC : Char := Char.ofNat 10
def spaceC : Char := ' '
def tabC : Char := Char.ofNat 9
def crC : Char := Char.ofNat 13

/-- Model of path.basename: the final path segment (text after the last
slash).  Build-output names never carry trailing slashes. -/
def basename (p : Str) : Str :=
  (p.reverse.takeWhile (fun c => c ≠ slashC)).reverse

/-- Model of path.extname: the suffix of the base name from its last dot,
with a dot in position 0 (a dotfile) not counting as an extension. -/
def extname (p : Str) : Str :=
  let b := basename p
  let afterDot := (b.reverse.takeWhile (fun c => c ≠ dotC)).reverse
  if afterDot.length + 1 ≥ b.length then [] else dotC :: afterDot

/-- Model of path.dirname: everything before the last slash, or the
one-dot path when there is no slash. -/
def dirname (p : Str) : Str :=
  if p.any (fun c => c = slashC) then
    p.take (p.length - (basename p).length - 1)
  else [dotC]

/-- Model of path.join for a directory and a file name, on the normalized
relative names produced by the bundler (join of the one-dot path with f
is f itself). -/
def joinPath (d f : Str) : Str :=
  if d = [dotC] then f else d ++ [slashC] ++ f

/-- Model of path.basename(p, ext): the base name with the suffix ext
stripped when it is a proper suffix. -/
def basenameStrip (p ext : Str) : Str :=
  let b := basename p
  if ext.isSuffixOf b ∧ ext.length < b.length then
    b.take (b.length - ext.length)
  else b

/-- Model of s.replace(new RegExp(escapeRegex(p), "g"), r): literal,
left-to-right, non-overlapping global replacement of the pattern p by r.
The replacement text is never rescanned (matches are found on the input).
For the empty pattern the input is returned unchanged (the engine only
replaces base file names, which are nonempty). -/
def replCore (p r : Str) : Nat → Str → Str
  | 0, s => s
  | _ + 1, [] => []
  | fuel + 1, c :: t =>
    if p ≠ [] ∧ p.isPrefixOf (c :: t) then
      r ++ replCore p r fuel ((c :: t).drop p.length)
    else
      c :: replCore p r fuel t

def replaceAll (p r s : Str) : Str := replCore p r s.length s

/-- Boolean suffix test used for file-name classification. -/
def endsW (s suffix : Str) : Bool := decide (suffix <:+ s)

/-- Boolean infix test used for file-name classification. -/
def containsSub (s sub : Str) : Bool := decide (sub <:+: s)

/-- Raw byte or textual content of an artifact (string | Uint8Array). -/
inductive Content where
  | str (s : Str)
  | bytes (b : List Nat)
deriving DecidableEq, Repr

/-- One rollup output artifact: an asset (source content) or a chunk
(code plus the declared dependency edges: static imports, dynamic
imports, and the vite metadata asset/css lists). -/
inductive Item where
  | asset (fileName : Str) (source : Content)
  | chunk (fileName : Str) (code : Str)
      (imports dynamicImports importedAssets importedCss : List Str)
deriving DecidableEq, Repr

/-- The output bundle: an insertion-ordered map from current file name to
artifact, as a JavaScript object with string keys preserves insertion
order. -/
abbrev Bundle := List (Str × Item)

/-- Association-list lookup (bundle[k]). -/
def getA {α : Type} : List (Str × α) → Str → Option α
  | [], _ => none
  | e :: rest, k => if e.1 = k then some e.2 else getA rest k

/-- Association-list update (bundle[k] = v): an existing key keeps its
position, a new key is appended, matching JS object / Map semantics. -/
def setA {α : Type} : List (Str × α) → Str → α → List (Str × α)
  | [], k, v => [(k, v)]
  | e :: rest, k, v => if e.1 = k then (k, v) :: rest else e :: setA rest k v

/-- Association-list removal (delete bundle[k]). -/
def eraseA {α : Type} : List (Str × α) → Str → List (Str × α)
  | [], _ => []
  | e :: rest, k => if e.1 = k then rest else e :: eraseA rest k

/-- The keys of an association list in order (Object.keys). -/
def keysA {α : Type} (l : List (Str × α)) : List Str := l.map Prod.fst

/-- Declared outbound references of an artifact (getDeps in
generateBundle): empty for assets and missing names, otherwise static
imports, dynamic imports, referenced assets and referenced styles, in
that order. -/
def getDeps (b : Bundle) (f : Str) : List Str :=
  match getA b f with
  | none => []
  | some (.asset _ _) => []
  | some (.chunk _ _ im dyn ia ic) => im ++ dyn ++ ia ++ ic

/-- State of the depth-first traversal: the emitted linearization, the
finished set and the on-stack (currently visiting) set. -/
structure TopoState where
  sorted : List Str
  visited : List Str
  visiting : List Str
deriving Repr

/-- The recursive visit of the topological sort.  A node already finished
or currently on the traversal stack is skipped (the latter breaks
cycles); otherwise its present dependencies are visited first and the
node is emitted post-order.  The JS recursion is modelled with explicit
fuel; topoSort supplies enough fuel for the recursion depth, which is
bounded by the number of artifacts (proved below). -/
def visit (b : Bundle) : Nat → TopoState → Str → TopoState
  | 0, st, _ => st
  | Nat.succ fuel, st, f =>
    if f ∈ st.visited ∨ f ∈ st.visiting then st
    else
      let st1 : TopoState := { st with visiting := f :: st.visiting }
      let st2 := (getDeps b f).foldl
        (fun s d => if (getA b d).isSome then visit b fuel s d else s) st1
      { sorted := st2.sorted ++ [f],
        visited := f :: st2.visited,
        visiting := st2.visiting.erase f }

/-- Topological sort of the whole output set: every key is used as a
root, in insertion order. -/
def topoSort (b : Bundle) : List Str :=
  ((keysA b).foldl (visit b ((keysA b).length + 1))
    { sorted := [], visited := [], visiting := [] }).sorted

/-- Manifest classification: a .json name containing a manifest marker. -/
def isManifestName (f : Str) : Bool :=
  endsW f (".json").data &&
    (containsSub f ("manifest").data || containsSub f (".vite").data)

/-- One pass of the reference rewriter: for every rename-map entry in
insertion order, replace the old base file name by the new base file name
across the whole text. -/
def applyMap (fm : List (Str × Str)) (s : Str) : Str :=
  fm.foldl (fun acc e => replaceAll (basename e.1) (basename e.2) acc) s

/-- Update an artifact's fileName field. -/
def withName : Item → Str → Item
  | .asset _ s, n => .asset n s
  | .chunk _ c im dyn ia ic, n => .chunk n c im dyn ia ic

/-- The rewrite applied to one artifact when it is processed: textual
content (a string asset source or chunk code) is passed through the
rename map so far; byte content is untouched.  Returns the updated item
and the content handed to the digest. -/
def rewriteItem (fm : List (Str × Str)) (item : Item) : Item × Content :=
  match item with
  | .asset fn (.str s) =>
      let s2 := applyMap fm s
      (.asset fn (.str s2), .str s2)
  | .asset fn (.bytes bs) => (.asset fn (.bytes bs), .bytes bs)
  | .chunk fn code im dyn ia ic =>
      let c2 := applyMap fm code
      (.chunk fn c2 im dyn ia ic, .str c2)

/-- Processing of one regular (non-manifest) artifact: rewrite its
textual content through the rename map so far, skip renaming for markup
(.html) names, otherwise digest the rewritten content, build the new name
from the digest with directory and extension preserved, and when it
differs move the artifact under the new key and record the rename. -/
def processRegular (digest : Content → Str)
    (st : Bundle × List (Str × Str)) (f : Str) : Bundle × List (Str × Str) :=
  match getA st.1 f with
  | none => st
  | some item =>
    let upd : Item × Content := rewriteItem st.2 item
    let b1 := setA st.1 f upd.1
    if endsW f (".html").data then (b1, st.2)
    else
      let newName := joinPath (dirname f) (digest upd.2 ++ extname f)
      if newName = f then (b1, st.2)
      else
        (setA (eraseA b1 f) newName (withName upd.1 newName),
         setA st.2 f newName)

/-- One step of the source-map reference pass: for a renamed .map
artifact whose parent (the name without the .map suffix) was also
renamed and is present as a chunk, replace the old map base name by the
new map base name inside the parent chunk's code. -/
def mapPassStep (fm : List (Str × Str)) (b : Bundle) (e : Str × Str) : Bundle :=
  if endsW e.1 (".map").data then
    match getA fm (e.1.take (e.1.length - 4)) with
    | none => b
    | some ns =>
      match getA b ns with
      | some (.chunk fn code im dyn ia ic) =>
          setA b ns
            (.chunk fn (replaceAll (basename e.1) (basename e.2) code)
              im dyn ia ic)
      | _ => b
  else b

/-- The source-map reference pass over the whole rename map. -/
def mapPass (b : Bundle) (fm : List (Str × Str)) : Bundle :=
  fm.foldl (mapPassStep fm) b

mutual
/-- JSON values as handled by the manifest passes.  The engine only reads
and rewrites string values inside objects, so the model covers the
string/object fragment of JSON (the structure owned by the host bundler
that the engine actually touches). -/
inductive Json where
  | str (s : Str)
  | obj (fields : JFields)

inductive JFields where
  | nil
  | cons (k : Str) (v : Json) (rest : JFields)
end

mutual
/-- Compact JSON.stringify (no spacing, insertion order preserved). -/
def jstringifyC : Json → Str
  | .str s => quoteC :: s ++ [quoteC]
  | .obj fs => lbraceC :: jfieldsC fs ++ [rbraceC]

/-- Compact serialization of object fields. -/
def jfieldsC : JFields → Str
  | .nil => []
  | .cons k v .nil => quoteC :: k ++ [quoteC, colonC] ++ jstringifyC v
  | .cons k v (.cons k2 v2 rest) =>
      quoteC :: k ++ [quoteC, colonC] ++ jstringifyC v ++ [commaC] ++
        jfieldsC (.cons k2 v2 rest)
end

/-- Indentation by spaces. -/
def spacesN (n : Nat) : Str := List.replicate n spaceC

mutual
/-- JSON.stringify(v, null, 2): two-space pretty printing in Node's
format (an empty object prints as a brace pair, otherwise one field per
line, key colon space value, closing brace on the parent's indent). -/
def jstringifyP (ind : Nat) : Json → Str
  | .str s => quoteC :: s ++ [quoteC]
  | .obj .nil => [lbraceC, rbraceC]
  | .obj (.cons k v rest) =>
      [lbraceC, nlC] ++ jfieldsP (ind + 2) (.cons k v rest) ++ [nlC] ++
        spacesN ind ++ [rbraceC]

/-- Pretty serialization of object fields at a given indent. -/
def jfieldsP (ind : Nat) : JFields → Str
  | .nil => []
  | .cons k v .nil =>
      spacesN ind ++ (quoteC :: k) ++ [quoteC, colonC, spaceC] ++
        jstringifyP ind v
  | .cons k v (.cons k2 v2 rest) =>
      spacesN ind ++ (quoteC :: k) ++ [quoteC, colonC, spaceC] ++
        jstringifyP ind v ++ [commaC, nlC] ++
        jfieldsP ind (.cons k2 v2 rest)
end

/-- Whitespace skipping for the JSON reader. -/
def skipWs (s : Str) : Str :=
  s.dropWhile (fun c => c = spaceC || c = nlC || c = tabC || c = crC)

mutual
/-- Fuel-driven recursive-descent reader for the string/object JSON
fragment (JSON.parse on the values the engine handles; string escapes do
not occur in the bundler's path strings). -/
def jparseVal (fuel : Nat) (s : Str) : Option (Json × Str) :=
  match fuel with
  | 0 => none
  | Nat.succ fuel =>
    match skipWs s with
    | [] => none
    | c :: rest =>
      if c = quoteC then
        let lit := rest.takeWhile (fun ch => ch ≠ quoteC)
        match rest.drop lit.length with
        | q :: r2 => if q = quoteC then some (.str lit, r2) else none
        | [] => none
      else if c = lbraceC then
        match skipWs rest with
        | c2 :: r2 =>
          if c2 = rbraceC then some (.obj .nil, r2)
          else (jparseFields fuel (skipWs rest)).map
            (fun pr => (Json.obj pr.1, pr.2))
        | [] => none
      else none

/-- Reads a nonempty field list up to and including the closing brace. -/
def jparseFields (fuel : Nat) (s : Str) : Option (JFields × Str) :=
  match fuel with
  | 0 => none
  | Nat.succ fuel =>
    match skipWs s with
    | c :: rest =>
      if c = quoteC then
        let key := rest.takeWhile (fun ch => ch ≠ quoteC)
        match rest.drop key.length with
        | q :: r2 =>
          if q = quoteC then
            match skipWs r2 with
            | c3 :: r3 =>
              if c3 = colonC then
                match jparseVal fuel r3 with
                | some (v, r4) =>
                  match skipWs r4 with
                  | c5 :: r5 =>
                    if c5 = commaC then
                      (jparseFields fuel r5).map
                        (fun pr => (JFields.cons key v pr.1, pr.2))
                    else if c5 = rbraceC then
                      some (.cons key v .nil, r5)
                    else none
                  | [] => none
                | none => none
              else none
            | [] => none
          else none
        | [] => none
      else none
    | [] => none
end

/-- JSON.parse: the whole input must be consumed (modulo whitespace). -/
def jparse (s : Str) : Option Json :=
  match jparseVal (2 * s.length + 4) s with
  | some (v, rest) => if skipWs rest = [] then some v else none
  | none => none

/-- Setting one object field: replace in place or append. -/
def jsetField (fs : JFields) (k : Str) (v : Json) : JFields :=
  match fs with
  | .nil => .cons k v .nil
  | .cons k2 v2 rest =>
      if k2 = k then .cons k v rest else .cons k2 v2 (jsetField rest k v)

/-- Object.assign(target, source) on parsed manifests: source fields
overwrite same-keyed target fields in place, new fields are appended. -/
def jassignFields (target : JFields) (source : JFields) : JFields :=
  match source with
  | .nil => target
  | .cons k v rest => jassignFields (jsetField target k v) rest

/-- Object.assign on JSON values: only object-onto-object merges occur
for well-formed manifests. -/
def jassign (target source : Json) : Json :=
  match target, source with
  | .obj t, .obj s => .obj (jassignFields t s)
  | t, _ => t

/-- Fallback manifest rewriting when the content does not parse as JSON:
literal replacement of every full old name by the new name. -/
def fallbackRepl (fm : List (Str × Str)) (content : Str) : Str :=
  fm.foldl (fun acc e => replaceAll e.1 e.2 acc) content

/-- The structured manifest rewrite loop: per rename-map entry the
manifest is re-serialized compactly, the full old name replaced by the
new name, re-parsed and merged back via Object.assign.  A re-parse
failure propagates (it throws inside the surrounding try). -/
def manifestLoop (fm : List (Str × Str)) (m : Json) : Option Json :=
  fm.foldl
    (fun om e =>
      match om with
      | none => none
      | some mm =>
        match jparse (replaceAll e.1 e.2 (jstringifyC mm)) with
        | none => none
        | some upd => some (jassign mm upd))
    (some m)

/-- Processing of one manifest artifact: structured JSON-level
substitution when the content parses, literal-text substitution
otherwise; the artifact itself is never renamed. -/
def processManifest (fm : List (Str × Str)) (b : Bundle) (f : Str) : Bundle :=
  match getA b f with
  | some (.asset fn (.str content)) =>
    let newContent :=
      match jparse content with
      | some m =>
        match manifestLoop fm m with
        | some m2 => jstringifyP 0 m2
        | none => fallbackRepl fm content
      | none => fallbackRepl fm content
    setA b f (.asset fn (.str newContent))
  | _ => b

/-- The full in-memory phase (generateBundle): topological ordering,
manifest/regular split, interleaved rewrite-and-rename over regular
files, source-map reference pass, then the manifest pass.  Returns the
final output set and the rename map. -/
def generateBundle (digest : Content → Str) (b : Bundle) :
    Bundle × List (Str × Str) :=
  let sortedL := topoSort b
  let manifestFiles := sortedL.filter (fun f => isManifestName f)
  let regularFiles := sortedL.filter (fun f => !isManifestName f)
  let st1 := regularFiles.foldl (processRegular digest) (b, [])
  let b2 := mapPass st1.1 st1.2
  let b3 := manifestFiles.foldl (processManifest st1.2) b2
  (b3, st1.2)

/-- The on-disk world seen by the disk phase: persisted files plus the
set of paths whose write raises an error. -/
structure FileSys where
  files : List (Str × Str)
  badWrites : List Str

/-- fs.readFile: raises when the file is absent. -/
def readFS (fs : FileSys) (p : Str) : Except Unit Str :=
  match getA fs.files p with
  | some c => .ok c
  | none => .error ()

/-- fs.writeFile: raises on a bad path, otherwise persists. -/
def writeFS (fs : FileSys) (p c : Str) : Except Unit FileSys :=
  if p ∈ fs.badWrites then .error ()
  else .ok { fs with files := setA fs.files p c }

/-- Whether a character is matched by one position of the manifest-path
pattern's directory part (an unescaped dot in the source regex matches
any character). -/
def dirPosMatch (pc sc : Char) : Bool := pc = dotC || pc = sc

/-- Directory-part match of the reconciler's regex. -/
def dirMatch (dir seg : Str) : Bool :=
  dir.length = seg.length &&
    (List.zip dir seg).all (fun pr => dirPosMatch pr.1 pr.2)

/-- All matches of the reconciler's quoted-path pattern
(quote, directory, slash, one-or-more non-quote characters, extension,
quote) in a serialized manifest, leftmost and non-overlapping as with a
global regex; the matched paths are returned without their quotes. -/
def findQuotedPaths (dir ext : Str) : Nat → Str → List Str
  | 0, _ => []
  | _, [] => []
  | Nat.succ fuel, c :: rest =>
    if c = quoteC then
      let seg := rest.take dir.length
      let rest2 := rest.drop dir.length
      match rest2 with
      | s :: rest3 =>
        if dirMatch dir seg && s = slashC then
          let run := rest3.takeWhile (fun ch => ch ≠ quoteC)
          match rest3.drop run.length with
          | q :: rest4 =>
            if q = quoteC && decide (ext <:+ run) &&
                decide (ext.length < run.length) then
              (seg ++ [slashC] ++ run) :: findQuotedPaths dir ext fuel rest4
            else findQuotedPaths dir ext fuel rest
          | [] => []
        else findQuotedPaths dir ext fuel rest
      | [] => []
    else findQuotedPaths dir ext fuel rest

/-- The per-bundle-name correction step of the disk-phase reconciler:
for a digest-named bundle file, scan the serialized manifest for quoted
stale paths in the same directory with the same extension and substitute
the bundle file name for each stale one (Object.assign merge as in the
in-memory pass). -/
def reconcileOne (b : Bundle) (st : Json × Bool) (bundleFileName : Str) :
    Except Unit (Json × Bool) :=
  let ext := extname bundleFileName
  if decide (("bafkrei").data <+: basenameStrip bundleFileName ext) then
    let dir := dirname bundleFileName
    let manifestStr := jstringifyC st.1
    let pmatches := findQuotedPaths dir ext (manifestStr.length + 1) manifestStr
    pmatches.foldl
      (fun acc oldPath =>
        match acc with
        | .error e => .error e
        | .ok (m, upd) =>
          if (getA b oldPath).isNone ∧ oldPath ≠ bundleFileName then
            match jparse (replaceAll oldPath bundleFileName (jstringifyC m)) with
            | none => .error ()
            | some parsed => .ok (jassign m parsed, true)
          else .ok (m, upd))
      (.ok st)
  else .ok st

/-- The per-file body of the disk phase (the contents of the try block
in writeBundle): read the persisted manifest, parse it, correct stale
digest-directory paths against the finalized output set, and write it
back only when something changed.  Any raised error escapes this
function. -/
def processCandidate (b : Bundle) (outDir : Str) (fs : FileSys) (f : Str) :
    Except Unit FileSys :=
  let filePath := joinPath outDir f
  match readFS fs filePath with
  | .error e => .error e
  | .ok content =>
    match jparse content with
    | none => .error ()
    | some m =>
      match (keysA b).foldl
          (fun acc k =>
            match acc with
            | .error e => .error e
            | .ok st => reconcileOne b st k)
          (Except.ok (m, false)) with
      | .error e => .error e
      | .ok (m2, updated) =>
        if updated then writeFS fs filePath (jstringifyP 0 m2)
        else .ok fs

/-- One iteration of the disk phase over a candidate file name: manifest
names run the body with the try/catch swallowing any error (the
filesystem is left as it was for that file), other names are skipped. -/
def writeBundleStep (b : Bundle) (outDir : Str) (fs : FileSys) (f : Str) :
    FileSys :=
  if isManifestName f then
    match processCandidate b outDir fs f with
    | .ok fs2 => fs2
    | .error _ => fs
  else fs

/-- The disk phase (writeBundle) over a list of candidate file names. -/
def writeBundleList (b : Bundle) (outDir : Str) (files : List Str)
    (fs : FileSys) : FileSys :=
  files.foldl (writeBundleStep b outDir) fs

/-- The disk phase (writeBundle): iterates the finalized output set's
keys. -/
def writeBundleModel (b : Bundle) (outDir : Str) (fs : FileSys) : FileSys :=
  writeBundleList b outDir (keysA b) fs

/-! ### Association-list lemmas -/

theorem getA_setA_self {α : Type} (l : List (Str × α)) (k : Str) (v : α) :
    getA (setA l k v) k = some v := by
  induction l with
  | nil => simp [setA, getA]
  | cons e rest ih =>
    by_cases h : e.1 = k
    · simp [setA, h, getA]
    · simp [setA, h, getA, ih]

theorem getA_setA_ne {α : Type} (l : List (Str × α)) (k k' : Str) (v : α)
    (h : k' ≠ k) : getA (setA l k v) k' = getA l k' := by
  induction l with
  | nil =>
    have : ¬ (k = k') := fun hh => h hh.symm
    simp [setA, getA, this]
  | cons e rest ih =>
    by_cases he : e.1 = k
    · subst he
      have h1 : ¬ (e.1 = k') := fun hh => h hh.symm
      simp [setA, getA, h1]
    · simp only [setA, if_neg he, getA]
      by_cases he' : e.1 = k'
      · simp [he']
      · simp [he', ih]

theorem getA_eraseA_ne {α : Type} (l : List (Str × α)) (k k' : Str)
    (h : k' ≠ k) : getA (eraseA l k) k' = getA l k' := by
  induction l with
  | nil => simp [eraseA]
  | cons e rest ih =>
    by_cases he : e.1 = k
    · subst he
      have h1 : ¬ (e.1 = k') := fun hh => h hh.symm
      simp [eraseA, getA, h1]
    · simp only [eraseA, if_neg he, getA]
      by_cases he' : e.1 = k'
      · simp [he']
      · simp [he', ih]

theorem getA_eq_none_of_not_mem {α : Type} (l : List (Str × α)) (k : Str)
    (h : k ∉ keysA l) : getA l k = none := by
  induction l with
  | nil => simp [getA]
  | cons e rest ih =>
    simp only [keysA, List.map_cons, List.mem_cons, not_or] at h
    have h1 : ¬ (e.1 = k) := fun hh => h.1 hh.symm
    simp only [getA, if_neg h1]
    exact ih h.2

theorem getA_isSome_of_mem {α : Type} (l : List (Str × α)) (k : Str)
    (h : k ∈ keysA l) : (getA l k).isSome := by
  induction l with
  | nil => simp [keysA] at h
  | cons e rest ih =>
    by_cases he : e.1 = k
    · simp [getA, he]
    · simp only [keysA, List.map_cons, List.mem_cons] at h
      rcases h with h | h
      · exact absurd h.symm he
      · simp only [getA, if_neg he]
        exact ih h

theorem keysA_setA_mem {α : Type} (l : List (Str × α)) (k : Str) (v : α)
    (h : k ∈ keysA l) : keysA (setA l k v) = keysA l := by
  induction l with
  | nil => simp [keysA] at h
  | cons e rest ih =>
    by_cases he : e.1 = k
    · simp [setA, he, keysA]
    · simp only [keysA, List.map_cons, List.mem_cons] at h
      rcases h with h | h
      · exact absurd h.symm he
      · simp only [setA, if_neg he, keysA, List.map_cons]
        rw [show List.map Prod.fst (setA rest k v) = keysA (setA rest k v) from rfl,
          ih h]
        rfl

theorem keysA_setA_not_mem {α : Type} (l : List (Str × α)) (k : Str) (v : α)
    (h : k ∉ keysA l) : keysA (setA l k v) = keysA l ++ [k] := by
  induction l with
  | nil => simp [setA, keysA]
  | cons e rest ih =>
    simp only [keysA, List.map_cons, List.mem_cons, not_or] at h
    have h1 : ¬ (e.1 = k) := fun hh => h.1 hh.symm
    simp only [setA, if_neg h1, keysA, List.map_cons, List.cons_append]
    rw [show List.map Prod.fst (setA rest k v) = keysA (setA rest k v) from rfl,
      ih h.2]
    rfl

/-! ### Claim C8: disk-phase errors are swallowed -/

/-- Claim C8: during the disk-phase Manifest Reconciler, a failure to
read, parse, or write a candidate manifest file is swallowed silently:
the per-file error is not surfaced (the phase is a total function into
FileSys), the filesystem is left as it was for that file, and the phase
continues with the remaining files. -/
theorem writeBundle_swallows (b : Bundle) (outDir : Str) (fs : FileSys)
    (f : Str) (rest : List Str)
    (h : processCandidate b outDir fs f = .error ()) :
    writeBundleList b outDir (f :: rest) fs = writeBundleList b outDir rest fs := by
  simp only [writeBundleList, List.foldl_cons, writeBundleStep, h]
  by_cases hm : isManifestName f <;> simp [hm]

/-- Witness for C8: a read failure (missing file on disk) at a concrete
candidate manifest name is swallowed. -/
theorem writeBundle_swallows_witness :
    writeBundleList [] (("dist").data) [((".vite/manifest.json").data)]
        ⟨[], []⟩ =
      writeBundleList [] (("dist").data) [] ⟨[], []⟩ :=
  writeBundle_swallows [] (("dist").data) ⟨[], []⟩
    ((".vite/manifest.json").data) [] (by rfl)

/-! ### Lemmas about literal global replacement -/

theorem replCore_step (p r : Str) :
    ∀ fuel (s : Str), s.length ≤ fuel →
      replCore p r (fuel + 1) s = replCore p r fuel s := by
  intro fuel
  induction fuel with
  | zero =>
    intro s hs
    rw [List.length_eq_zero.mp (Nat.le_zero.mp hs)]
    rfl
  | succ fuel ih =>
    intro s hs
    cases s with
    | nil => rfl
    | cons c t =>
      have hlen : t.length ≤ fuel := by
        simpa [List.length_cons, Nat.succ_le_succ_iff] using hs
      simp only [replCore]
      by_cases h : p ≠ [] ∧ p.isPrefixOf (c :: t)
      · rw [if_pos h, if_pos h]
        have hp : 1 ≤ p.length := List.length_pos.mpr h.1
        have hd : ((c :: t).drop p.length).length ≤ fuel := by
          simp only [List.length_drop, List.length_cons]
          omega
        rw [ih _ hd]
      · rw [if_neg h, if_neg h, ih _ hlen]

theorem replCore_fuel (p r : Str) :
    ∀ fuel (s : Str), s.length ≤ fuel →
      replCore p r fuel s = replCore p r s.length s := by
  intro fuel
  induction fuel with
  | zero =>
    intro s hs
    rw [List.length_eq_zero.mp (Nat.le_zero.mp hs)]
    rfl
  | succ fuel ih =>
    intro s hs
    rcases Nat.lt_or_ge s.length (fuel + 1) with hlt | hge
    · have hle : s.length ≤ fuel := Nat.lt_succ_iff.mp hlt
      rw [replCore_step p r fuel s hle, ih s hle]
    · have : s.length = fuel + 1 := Nat.le_antisymm hs hge
      rw [this]

theorem replaceAll_nil_input (p r : Str) : replaceAll p r [] = [] := rfl

theorem replaceAll_cons (p r : Str) (c : Char) (t : Str) :
    replaceAll p r (c :: t) =
      if p ≠ [] ∧ p.isPrefixOf (c :: t) then
        r ++ replaceAll p r ((c :: t).drop p.length)
      else c :: replaceAll p r t := by
  show replCore p r (c :: t).length (c :: t) = _
  simp only [List.length_cons, replCore, replaceAll]
  by_cases h : p ≠ [] ∧ p.isPrefixOf (c :: t)
  · rw [if_pos h, if_pos h]
    have hp : 1 ≤ p.length := List.length_pos.mpr h.1
    have hd : ((c :: t).drop p.length).length ≤ t.length := by
      simp only [List.length_drop, List.length_cons]
      omega
    rw [replCore_fuel p r t.length _ hd]
  · rw [if_neg h, if_neg h]

/-- Text without an occurrence of the pattern is left unchanged. -/
theorem replaceAll_not_infix (p r : Str) :
    ∀ s, ¬ p <:+: s → replaceAll p r s = s := by
  intro s
  induction s with
  | nil => intro _; exact replaceAll_nil_input p r
  | cons c t ih =>
    intro h
    rw [replaceAll_cons]
    rw [if_neg]
    · rw [ih (fun hin => h (List.infix_cons hin))]
    · rintro ⟨hne, hpre⟩
      exact h (List.isPrefixOf_iff_prefix.mp hpre).isInfix

/-- Decomposition of a prefix of an append. -/
theorem prefix_append_split {α : Type} {p l₁ l₂ : List α}
    (h : p <+: l₁ ++ l₂) :
    p <+: l₁ ∨ ∃ y, p = l₁ ++ y ∧ y <+: l₂ := by
  induction l₁ generalizing p with
  | nil => exact Or.inr ⟨p, by simpa using h⟩
  | cons a l₁ ih =>
    rcases List.prefix_cons_iff.mp h with h0 | ⟨t, rfl, ht⟩
    · subst h0; exact Or.inl List.nil_prefix
    · rcases ih ht with h1 | ⟨y, rfl, hy⟩
      · exact Or.inl (List.cons_prefix_cons.mpr ⟨rfl, h1⟩)
      · exact Or.inr ⟨y, by simp, hy⟩

/-- Decomposition of an occurrence inside an append: entirely in the
left part, entirely in the right part, or straddling the seam. -/
theorem infix_append_split {α : Type} {p l₁ l₂ : List α}
    (h : p <:+: l₁ ++ l₂) :
    p <:+: l₁ ∨ p <:+: l₂ ∨
      ∃ x y, p = x ++ y ∧ x ≠ [] ∧ y ≠ [] ∧ x <:+ l₁ ∧ y <+: l₂ := by
  induction l₁ generalizing p with
  | nil => exact Or.inr (Or.inl (by simpa using h))
  | cons a l₁ ih =>
    rcases List.infix_cons_iff.mp (by simpa using h) with hpre | hin
    · rcases prefix_append_split
          (show p <+: (a :: l₁) ++ l₂ by simpa using hpre) with
        h1 | ⟨y, rfl, hy⟩
      · exact Or.inl h1.isInfix
      · rcases eq_or_ne y [] with rfl | hy0
        · exact Or.inl (by simpa using List.infix_rfl)
        · exact Or.inr (Or.inr ⟨a :: l₁, y, rfl, by simp, hy0,
            List.suffix_refl _, hy⟩)
    · rcases ih hin with h1 | h2 | ⟨x, y, rfl, hx0, hy0, hx, hy⟩
      · exact Or.inl (List.infix_cons h1)
      · exact Or.inr (Or.inl h2)
      · exact Or.inr (Or.inr ⟨x, y, rfl, hx0, hy0,
          hx.trans (List.suffix_cons a l₁), hy⟩)

/-- Side conditions under which replacing by r can neither contain nor
recreate an occurrence of the pattern p: p is nonempty, p does not occur
in r, no nonempty proper prefix of p ends r, and no suffix of p starts r
or is started by r.  These hold for realistic digest-derived base names
and are decidable on concrete inputs. -/
def SafeRepl (p r : Str) : Prop :=
  p ≠ [] ∧ ¬ p <:+: r ∧
    (∀ j < p.length, 1 ≤ j → ¬ (p.take j <:+ r)) ∧
    (∀ k < p.length, ¬ (p.drop k <+: r) ∧ ¬ (r <+: p.drop k))

instance (p r : Str) : Decidable (SafeRepl p r) := by
  unfold SafeRepl
  infer_instance

/-- Key invariant: a tail fragment of p that is a prefix of replaced
text was already a prefix of the original text (replacement blocks can
never supply part of such a fragment under the SafeRepl side
conditions).  Stated for an arbitrary pattern q being replaced. -/
theorem drop_prefix_replaceAll (p r q : Str)
    (hC : ∀ k < p.length, ¬ (p.drop k <+: r) ∧ ¬ (r <+: p.drop k)) :
    ∀ t k, 1 ≤ k → k ≤ p.length →
      p.drop k <+: replaceAll q r t → p.drop k <+: t := by
  intro t
  induction t with
  | nil =>
    intro k _ _ hpre
    rw [replaceAll_nil_input] at hpre
    rw [List.prefix_nil.mp hpre]
  | cons c t' ih =>
    intro k hk1 hk2 hpre
    rcases eq_or_lt_of_le hk2 with rfl | hklt
    · simp
    rw [replaceAll_cons] at hpre
    by_cases hq : q ≠ [] ∧ q.isPrefixOf (c :: t')
    · rw [if_pos hq] at hpre
      rcases prefix_append_split hpre with h1 | ⟨y, hy, _⟩
      · exact absurd h1 (hC k hklt).1
      · exact absurd ⟨y, hy.symm⟩ (hC k hklt).2
    · rw [if_neg hq] at hpre
      have hdrop : p.drop k = p[k] :: p.drop (k + 1) :=
        List.drop_eq_getElem_cons hklt
      rw [hdrop] at hpre
      rcases List.cons_prefix_cons.mp hpre with ⟨rfl, htail⟩
      rw [hdrop]
      exact List.cons_prefix_cons.mpr ⟨rfl, ih (k + 1) (by omega) hklt htail⟩

/-- Replacing p by r under the SafeRepl conditions removes every
occurrence of p: none survives in gaps (greedy matching), inside r
(p does not occur in r), or straddling block seams (the prefix/suffix
conditions). -/
theorem not_infix_replaceAll_self (p r : Str) (hs : SafeRepl p r) :
    ∀ s, ¬ p <:+: replaceAll p r s := by
  have main : ∀ n s, s.length ≤ n → ¬ p <:+: replaceAll p r s := by
    intro n
    induction n with
    | zero =>
      intro s hl
      rw [List.length_eq_zero.mp (Nat.le_zero.mp hl), replaceAll_nil_input]
      simp only [List.infix_nil]
      exact hs.1
    | succ n ihn =>
      intro s hl
      cases s with
      | nil =>
        rw [replaceAll_nil_input]
        simp only [List.infix_nil]
        exact hs.1
      | cons c t =>
        rw [replaceAll_cons]
        by_cases hq : p ≠ [] ∧ p.isPrefixOf (c :: t)
        · rw [if_pos hq]
          intro hin
          rcases infix_append_split hin with h1 | h2 | ⟨x, y, hxy, hx0, hy0, hx, _⟩
          · exact hs.2.1 h1
          · refine ihn _ ?_ h2
            have hp1 : 1 ≤ p.length := List.length_pos.mpr hq.1
            simp only [List.length_drop, List.length_cons]
            simp only [List.length_cons] at hl
            omega
          · have hxtake : x = p.take x.length := by
              rw [hxy, List.take_left]
            have hxlt : x.length < p.length := by
              rw [hxy, List.length_append]
              have := List.length_pos.mpr hy0
              omega
            exact hs.2.2.1 x.length hxlt (List.length_pos.mpr hx0)
              (hxtake ▸ hx)
        · rw [if_neg hq]
          intro hin
          rcases List.infix_cons_iff.mp hin with hpre | hinf
          · rcases List.prefix_cons_iff.mp hpre with h0 | ⟨u, hu, hut⟩
            · exact hs.1 h0
            · have hu1 : u = p.drop 1 := by rw [hu]; simp
              by_cases hul : u = []
              · refine hq ⟨hs.1, ?_⟩
                rw [hu, hul]
                exact List.isPrefixOf_iff_prefix.mpr
                  (List.cons_prefix_cons.mpr ⟨rfl, List.nil_prefix⟩)
              · have hlen2 : 1 < p.length := by
                  have := List.length_pos.mpr hul
                  rw [hu1, List.length_drop] at this
                  omega
                have := drop_prefix_replaceAll p r p hs.2.2.2 t 1
                  (by omega) (by omega) (hu1 ▸ hut)
                refine hq ⟨hs.1, List.isPrefixOf_iff_prefix.mpr ?_⟩
                rw [hu, hu1]
                exact List.cons_prefix_cons.mpr ⟨rfl, this⟩
          · refine ihn t ?_ hinf
            simp only [List.length_cons] at hl
            omega
  intro s
  exact main s.length s le_rfl

/-- Replacing a different pattern q cannot introduce an occurrence of p
when p satisfies the SafeRepl conditions against the replacement text. -/
theorem not_infix_replaceAll_other (p q r : Str) (hs : SafeRepl p r) :
    ∀ s, ¬ p <:+: s → ¬ p <:+: replaceAll q r s := by
  have main : ∀ n s, s.length ≤ n → ¬ p <:+: s → ¬ p <:+: replaceAll q r s := by
    intro n
    induction n with
    | zero =>
      intro s hl _
      rw [List.length_eq_zero.mp (Nat.le_zero.mp hl), replaceAll_nil_input]
      simp only [List.infix_nil]
      exact hs.1
    | succ n ihn =>
      intro s hl hns
      cases s with
      | nil => rw [replaceAll_nil_input]; exact hns
      | cons c t =>
        rw [replaceAll_cons]
        by_cases hq : q ≠ [] ∧ q.isPrefixOf (c :: t)
        · rw [if_pos hq]
          intro hin
          rcases infix_append_split hin with h1 | h2 | ⟨x, y, hxy, hx0, hy0, hx, _⟩
          · exact hs.2.1 h1
          · refine ihn _ ?_ ?_ h2
            · have hq1 : 1 ≤ q.length := List.length_pos.mpr hq.1
              simp only [List.length_drop, List.length_cons]
              simp only [List.length_cons] at hl
              omega
            · intro hdin
              exact hns (hdin.trans (List.drop_suffix _ _).isInfix)
          · have hxtake : x = p.take x.length := by
              rw [hxy, List.take_left]
            have hxlt : x.length < p.length := by
              rw [hxy, List.length_append]
              have := List.length_pos.mpr hy0
              omega
            exact hs.2.2.1 x.length hxlt (List.length_pos.mpr hx0)
              (hxtake ▸ hx)
        · rw [if_neg hq]
          intro hin
          rcases List.infix_cons_iff.mp hin with hpre | hinf
          · rcases List.prefix_cons_iff.mp hpre with h0 | ⟨u, hu, hut⟩
            · exact hs.1 h0
            · have hu1 : u = p.drop 1 := by rw [hu]; simp
              by_cases hul : u = []
              · refine hns ?_
                rw [hu, hul]
                exact (List.cons_prefix_cons.mpr
                  ⟨rfl, List.nil_prefix⟩).isInfix
              · have hlen2 : 1 < p.length := by
                  have := List.length_pos.mpr hul
                  rw [hu1, List.length_drop] at this
                  omega
                have := drop_prefix_replaceAll p r q hs.2.2.2 t 1
                  (by omega) (by omega) (hu1 ▸ hut)
                refine hns ?_
                rw [hu, hu1]
                exact (List.cons_prefix_cons.mpr ⟨rfl, this⟩).isInfix
          · refine ihn t ?_ ?_ hinf
            · simp only [List.length_cons] at hl
              omega
            · intro hdin
              exact hns (List.infix_cons hdin)
  intro s
  exact main s.length s le_rfl

/-- Generic sequential application of literal replacements. -/
def applyPairs (l : List (Str × Str)) (s : Str) : Str :=
  l.foldl (fun acc e => replaceAll e.1 e.2 acc) s

theorem applyPairs_append (l₁ l₂ : List (Str × Str)) (s : Str) :
    applyPairs (l₁ ++ l₂) s = applyPairs l₂ (applyPairs l₁ s) := by
  simp [applyPairs, List.foldl_append]

theorem applyPairs_cons (e : Str × Str) (l : List (Str × Str)) (s : Str) :
    applyPairs (e :: l) s = applyPairs l (replaceAll e.1 e.2 s) := rfl

/-- The rewriter's pass is a sequential application of base-name
replacements. -/
theorem applyMap_eq_applyPairs (fm : List (Str × Str)) (s : Str) :
    applyMap fm s =
      applyPairs (fm.map (fun e => (basename e.1, basename e.2))) s := by
  simp [applyMap, applyPairs, List.foldl_map]

/-- The fallback manifest rewrite is a sequential application of
full-name replacements. -/
theorem fallbackRepl_eq_applyPairs (fm : List (Str × Str)) (s : Str) :
    fallbackRepl fm s = applyPairs fm s := rfl

/-- Later replacements cannot reintroduce p when p is SafeRepl against
each later replacement text. -/
theorem not_infix_applyPairs (p : Str) (post : List (Str × Str))
    (h : ∀ e ∈ post, SafeRepl p e.2) :
    ∀ s, ¬ p <:+: s → ¬ p <:+: applyPairs post s := by
  induction post with
  | nil => intro s hns; exact hns
  | cons e l ih =>
    intro s hns
    rw [applyPairs_cons]
    exact ih (fun e' he' => h e' (List.mem_cons_of_mem e he')) _
      (not_infix_replaceAll_other p e.1 e.2 (h e (List.mem_cons_self e l)) s hns)

/-- After a sequence of replacements containing the entry (p, r), no
occurrence of p survives, provided p is SafeRepl against r and against
every later replacement text. -/
theorem not_infix_applyPairs_of_mem (pre : List (Str × Str)) (p r : Str)
    (post : List (Str × Str)) (s : Str) (h1 : SafeRepl p r)
    (h2 : ∀ e ∈ post, SafeRepl p e.2) :
    ¬ p <:+: applyPairs (pre ++ (p, r) :: post) s := by
  rw [applyPairs_append, applyPairs_cons]
  exact not_infix_applyPairs p post h2 _
    (not_infix_replaceAll_self p r h1 _)

/-- The regular-file loop of generateBundle as a fold. -/
def processRegulars (digest : Content → Str) (st : Bundle × List (Str × Str))
    (fs : List Str) : Bundle × List (Str × Str) :=
  fs.foldl (processRegular digest) st

/-- The regular (non-manifest) file list in processing order. -/
def regsOf (b : Bundle) : List Str :=
  (topoSort b).filter (fun f => !isManifestName f)

/-- The manifest file list in processing order. -/
def mansOf (b : Bundle) : List Str :=
  (topoSort b).filter (fun f => isManifestName f)

theorem generateBundle_eq (digest : Content → Str) (b : Bundle) :
    generateBundle digest b =
      ((mansOf b).foldl (processManifest (processRegulars digest (b, []) (regsOf b)).2)
        (mapPass (processRegulars digest (b, []) (regsOf b)).1
          (processRegulars digest (b, []) (regsOf b)).2),
       (processRegulars digest (b, []) (regsOf b)).2) := rfl

/-! ### More association-list lemmas for the loop invariants -/

theorem setA_not_mem_append {α : Type} (l : List (Str × α)) (k : Str) (v : α)
    (h : k ∉ keysA l) : setA l k v = l ++ [(k, v)] := by
  induction l with
  | nil => simp [setA]
  | cons e rest ih =>
    simp only [keysA, List.map_cons, List.mem_cons, not_or] at h
    have h1 : ¬ (e.1 = k) := fun hh => h.1 hh.symm
    simp only [setA, if_neg h1, List.cons_append, List.cons.injEq, true_and]
    exact ih h.2

theorem keysA_eraseA {α : Type} (l : List (Str × α)) (k : Str) :
    keysA (eraseA l k) = (keysA l).erase k := by
  induction l with
  | nil => simp [eraseA, keysA]
  | cons e rest ih =>
    by_cases he : e.1 = k
    · simp [eraseA, he, keysA, List.erase_cons_head]
    · have hbe : (e.1 == k) = false := by simp [he]
      simp only [eraseA, if_neg he, keysA, List.map_cons, List.erase_cons, hbe,
        if_neg]
      rw [show List.map Prod.fst (eraseA rest k) = keysA (eraseA rest k) from rfl,
        ih]
      rfl

theorem mem_keysA_setA_of_mem {α : Type} (l : List (Str × α)) (k g : Str)
    (v : α) (h : g ∈ keysA l) : g ∈ keysA (setA l k v) := by
  by_cases hk : k ∈ keysA l
  · rw [keysA_setA_mem l k v hk]; exact h
  · rw [keysA_setA_not_mem l k v hk]; exact List.mem_append_left _ h

theorem nodup_keysA_setA {α : Type} (l : List (Str × α)) (k : Str) (v : α)
    (h : (keysA l).Nodup) : (keysA (setA l k v)).Nodup := by
  by_cases hk : k ∈ keysA l
  · rw [keysA_setA_mem l k v hk]; exact h
  · rw [keysA_setA_not_mem l k v hk]
    simp [List.nodup_append, h, hk]

/-- Rename-map entries whose key lies in a prefix of the processing
order: the part of the rename map already present when the first file
outside that prefix is processed. -/
def fmUpTo (d : List (Str × Str)) (pre : List Str) : List (Str × Str) :=
  d.filter (fun e => decide (e.1 ∈ pre))

theorem fmUpTo_nil (d : List (Str × Str)) : fmUpTo d [] = [] := by
  simp [fmUpTo]

theorem fmUpTo_cons_not_mem (d : List (Str × Str)) (k : Str) (pre : List Str)
    (h : ∀ e ∈ d, e.1 ≠ k) : fmUpTo d (k :: pre) = fmUpTo d pre := by
  unfold fmUpTo
  apply List.filter_congr
  intro e he
  simp only [List.mem_cons, decide_eq_decide]
  constructor
  · rintro (h1 | h1)
    · exact absurd h1 (h e he)
    · exact h1
  · exact Or.inr


/-- The digest-derived name the Planner computes for file f from the
rewritten content: directory and extension preserved, extension-stripped
base name replaced by the digest text. -/
def newNameOf (digest : Content → Str) (fmAt : List (Str × Str)) (f : Str)
    (item₀ : Item) : Str :=
  joinPath (dirname f) (digest (rewriteItem fmAt item₀).2 ++ extname f)

/-- Specification vocabulary: what the regular-file loop guarantees for
one processed file f, given the rename-map state fmAt seen at f's turn:
any rename-map entry for f carries the digest-derived name, the entry
exists exactly when f is not markup and the name differs, and the
(rewritten, possibly moved) artifact is found in the resulting bundle. -/
def FileOutcomeAt (digest : Content → Str) (b : Bundle)
    (d : List (Str × Str)) (rest : List Str) (outB : Bundle) (f : Str)
    (fmAt : List (Str × Str)) : Prop :=
  ∃ item₀, getA b f = some item₀ ∧
    (∀ n', (f, n') ∈ d → n' = newNameOf digest fmAt f item₀) ∧
    ((f ∈ keysA d) ↔ (endsW f (".html").data = false ∧
      newNameOf digest fmAt f item₀ ≠ f)) ∧
    (endsW f (".html").data = true →
      getA outB f = some (rewriteItem fmAt item₀).1) ∧
    (endsW f (".html").data = false → newNameOf digest fmAt f item₀ = f →
      getA outB f = some (rewriteItem fmAt item₀).1) ∧
    (endsW f (".html").data = false → newNameOf digest fmAt f item₀ ≠ f →
      newNameOf digest fmAt f item₀ ∉ rest →
      (∀ e ∈ d, e.1 ≠ f → e.2 ≠ newNameOf digest fmAt f item₀) →
      getA outB (newNameOf digest fmAt f item₀) =
        some (withName (rewriteItem fmAt item₀).1
          (newNameOf digest fmAt f item₀)))

/-- The rename-map state seen by file f during the loop started with
rename map fm over processing order rest, when the loop appended the
entries d: the starting map plus the entries of files before f. -/
def fmSeen (fm d : List (Str × Str)) (rest : List Str) (f : Str) :
    List (Str × Str) :=
  fm ++ fmUpTo d (rest.takeWhile (fun g => g ≠ f))

/-- Unfolding of one loop iteration when the file is present. -/
theorem processRegular_some (digest : Content → Str) (b : Bundle)
    (fm : List (Str × Str)) (f : Str) (item₀ : Item)
    (h : getA b f = some item₀) :
    processRegular digest (b, fm) f =
      (if endsW f (".html").data then (setA b f (rewriteItem fm item₀).1, fm)
       else if newNameOf digest fm f item₀ = f then
         (setA b f (rewriteItem fm item₀).1, fm)
       else
         (setA (eraseA (setA b f (rewriteItem fm item₀).1) f)
            (newNameOf digest fm f item₀)
            (withName (rewriteItem fm item₀).1 (newNameOf digest fm f item₀)),
          setA fm f (newNameOf digest fm f item₀))) := by
  simp only [processRegular, h, newNameOf]

theorem fmSeen_head (fm d : List (Str × Str)) (f : Str) (rest : List Str) :
    fmSeen fm d (f :: rest) f = fm := by
  unfold fmSeen
  rw [show (f :: rest).takeWhile (fun g => g ≠ f) = ([] : List Str) by
    simp [List.takeWhile_cons], fmUpTo_nil, List.append_nil]

theorem fmSeen_later_same (fm d : List (Str × Str)) (f₀ f : Str)
    (rest : List Str) (hne : f ≠ f₀) (hdk : ∀ e ∈ d, e.1 ≠ f₀) :
    fmSeen fm d (f₀ :: rest) f = fmSeen fm d rest f := by
  unfold fmSeen
  rw [show (f₀ :: rest).takeWhile (fun g => g ≠ f) =
      f₀ :: rest.takeWhile (fun g => g ≠ f) by
    simp [List.takeWhile_cons, Ne.symm hne],
    fmUpTo_cons_not_mem d f₀ _ hdk]

theorem fmSeen_later_renamed (fm d : List (Str × Str)) (f₀ n₀ f : Str)
    (rest : List Str) (hne : f ≠ f₀) (hdk : ∀ e ∈ d, e.1 ≠ f₀) :
    fmSeen fm ((f₀, n₀) :: d) (f₀ :: rest) f =
      fmSeen (fm ++ [(f₀, n₀)]) d rest f := by
  unfold fmSeen
  rw [show (f₀ :: rest).takeWhile (fun g => g ≠ f) =
      f₀ :: rest.takeWhile (fun g => g ≠ f) by
    simp [List.takeWhile_cons, Ne.symm hne]]
  rw [show fmUpTo ((f₀, n₀) :: d) (f₀ :: rest.takeWhile (fun g => g ≠ f)) =
      (f₀, n₀) :: fmUpTo d (rest.takeWhile (fun g => g ≠ f)) from ?_]
  · simp
  · unfold fmUpTo
    rw [List.filter_cons, if_pos (by simp)]
    congr 1
    apply List.filter_congr
    intro e he
    simp only [List.mem_cons, decide_eq_decide]
    constructor
    · rintro (hh | hh)
      · exact absurd hh (hdk e he)
      · exact hh
    · exact Or.inr

/-- Characterization of the regular-file loop: the rename map grows by a
set of entries d whose keys follow the processing order, every entry's
new name is digest-derived with directory and extension preserved, keys
of the result stay duplicate-free, files that are never the target of a
created name are left in place, and each processed file sees exactly the
rename-map entries recorded before its turn. -/
theorem processRegulars_char (digest : Content → Str) :
    ∀ (rest : List Str) (b : Bundle) (fm : List (Str × Str)),
      (keysA b).Nodup → rest.Nodup →
      (∀ f ∈ rest, f ∈ keysA b) →
      (∀ f ∈ rest, f ∉ keysA fm) →
      ∃ d,
        (processRegulars digest (b, fm) rest).2 = fm ++ d ∧
        List.Sublist (d.map Prod.fst) rest ∧
        (∀ e ∈ d, ∃ c,
          e.2 = joinPath (dirname e.1) (digest c ++ extname e.1) ∧
          endsW e.1 (".html").data = false ∧ e.2 ≠ e.1) ∧
        (keysA (processRegulars digest (b, fm) rest).1).Nodup ∧
        (∀ g, g ∉ rest → (∀ e ∈ d, e.2 ≠ g) →
          getA (processRegulars digest (b, fm) rest).1 g = getA b g) ∧
        (∀ f ∈ rest, (∀ e ∈ d, e.2 ≠ f) →
          FileOutcomeAt digest b d rest
            (processRegulars digest (b, fm) rest).1 f (fmSeen fm d rest f)) := by
  intro rest
  induction rest with
  | nil =>
    intro b fm hnd _ _ _
    refine ⟨[], by simp [processRegulars], by simp, by simp, ?_,
      by simp [processRegulars], by simp⟩
    simpa [processRegulars] using hnd
  | cons f₀ rest ih =>
    intro b fm hnd hrestnd hsub hfm
    have hf₀b : f₀ ∈ keysA b := hsub f₀ (List.mem_cons_self _ _)
    obtain ⟨item₀, hitem⟩ :=
      Option.isSome_iff_exists.mp (getA_isSome_of_mem b f₀ hf₀b)
    have hf₀rest : f₀ ∉ rest := (List.nodup_cons.mp hrestnd).1
    have hrest' : rest.Nodup := (List.nodup_cons.mp hrestnd).2
    have hfold : processRegulars digest (b, fm) (f₀ :: rest) =
        processRegulars digest (processRegular digest (b, fm) f₀) rest := rfl
    have hstep := processRegular_some digest b fm f₀ item₀ hitem
    have hkeys1 : keysA (setA b f₀ (rewriteItem fm item₀).1) = keysA b :=
      keysA_setA_mem b f₀ _ hf₀b
    have noRename :
        processRegular digest (b, fm) f₀ =
            (setA b f₀ (rewriteItem fm item₀).1, fm) →
        (endsW f₀ (".html").data = true ∨
          (endsW f₀ (".html").data = false ∧
            newNameOf digest fm f₀ item₀ = f₀)) →
        ∃ d,
          (processRegulars digest (b, fm) (f₀ :: rest)).2 = fm ++ d ∧
          List.Sublist (d.map Prod.fst) (f₀ :: rest) ∧
          (∀ e ∈ d, ∃ c,
            e.2 = joinPath (dirname e.1) (digest c ++ extname e.1) ∧
            endsW e.1 (".html").data = false ∧ e.2 ≠ e.1) ∧
          (keysA (processRegulars digest (b, fm) (f₀ :: rest)).1).Nodup ∧
          (∀ g, g ∉ f₀ :: rest → (∀ e ∈ d, e.2 ≠ g) →
            getA (processRegulars digest (b, fm) (f₀ :: rest)).1 g =
              getA b g) ∧
          (∀ f ∈ f₀ :: rest, (∀ e ∈ d, e.2 ≠ f) →
            FileOutcomeAt digest b d (f₀ :: rest)
              (processRegulars digest (b, fm) (f₀ :: rest)).1 f
              (fmSeen fm d (f₀ :: rest) f)) := by
      intro hst hwhy
      rw [hfold, hst]
      obtain ⟨d, hd1, hd2, hd3, hd4, hd5, hd6⟩ :=
        ih (setA b f₀ (rewriteItem fm item₀).1) fm
          (by rw [hkeys1]; exact hnd) hrest'
          (fun f hf => by rw [hkeys1]; exact hsub f (List.mem_cons_of_mem _ hf))
          (fun f hf => hfm f (List.mem_cons_of_mem _ hf))
      have hdk : ∀ e ∈ d, e.1 ≠ f₀ := by
        intro e he heq
        exact hf₀rest (heq ▸ hd2.subset (List.mem_map_of_mem Prod.fst he))
      refine ⟨d, hd1, hd2.cons f₀, hd3, hd4, ?_, ?_⟩
      · intro g hg hv
        have hg' : g ∉ rest := fun hh => hg (List.mem_cons_of_mem _ hh)
        have hgf₀ : g ≠ f₀ := fun hh => hg (hh ▸ List.mem_cons_self _ _)
        rw [hd5 g hg' hv, getA_setA_ne b f₀ g _ hgf₀]
      · intro f hfmem hvf
        rcases List.mem_cons.mp hfmem with rfl | hfmem'
        · rw [fmSeen_head]
          refine ⟨item₀, hitem, ?_, ?_, ?_, ?_, ?_⟩
          · intro n' hn'
            exact absurd rfl (hdk (f, n') hn')
          · constructor
            · intro hin
              obtain ⟨e, he, hee⟩ := List.mem_map.mp hin
              exact absurd hee (hdk e he)
            · rintro ⟨hh1, hh2⟩
              rcases hwhy with hw | ⟨_, hw2⟩
              · rw [hw] at hh1; cases hh1
              · exact absurd hw2 hh2
          · intro _
            rw [hd5 f hf₀rest hvf, getA_setA_self]
          · intro _ _
            rw [hd5 f hf₀rest hvf, getA_setA_self]
          · intro hh1 hh2 _ _
            rcases hwhy with hw | ⟨_, hw2⟩
            · rw [hw] at hh1; cases hh1
            · exact absurd hw2 hh2
        · have hff₀ : f ≠ f₀ := fun hh => hf₀rest (hh ▸ hfmem')
          have foc := hd6 f hfmem' hvf
          rw [fmSeen_later_same fm d f₀ f rest hff₀ hdk]
          obtain ⟨item₁, hitem₁, h1, h2, h3, h4, h5⟩ := foc
          rw [getA_setA_ne b f₀ f _ hff₀] at hitem₁
          refine ⟨item₁, hitem₁, h1, h2, h3, h4, ?_⟩
          intro hh1 hh2 hh3 hh4
          exact h5 hh1 hh2 (fun hmem => hh3 (List.mem_cons_of_mem _ hmem)) hh4
    by_cases hhtml : endsW f₀ (".html").data
    · apply noRename
      · rw [hstep, if_pos hhtml]
      · exact Or.inl hhtml
    · have hhtmlf : endsW f₀ (".html").data = false := by
        simpa using hhtml
      by_cases hren : newNameOf digest fm f₀ item₀ = f₀
      · apply noRename
        · rw [hstep, if_neg (by simp [hhtmlf]), if_pos hren]
        · exact Or.inr ⟨hhtmlf, hren⟩
      · -- rename branch
        have hfmapp : setA fm f₀ (newNameOf digest fm f₀ item₀) =
            fm ++ [(f₀, newNameOf digest fm f₀ item₀)] :=
          setA_not_mem_append fm f₀ _ (hfm f₀ (List.mem_cons_self _ _))
        have hst : processRegular digest (b, fm) f₀ =
            (setA (eraseA (setA b f₀ (rewriteItem fm item₀).1) f₀)
              (newNameOf digest fm f₀ item₀)
              (withName (rewriteItem fm item₀).1 (newNameOf digest fm f₀ item₀)),
             fm ++ [(f₀, newNameOf digest fm f₀ item₀)]) := by
          rw [hstep, if_neg (by simp [hhtmlf]), if_neg hren, hfmapp]
        have hkeyse :
            keysA (eraseA (setA b f₀ (rewriteItem fm item₀).1) f₀) =
              (keysA b).erase f₀ := by
          rw [keysA_eraseA, hkeys1]
        have hnd2 : (keysA (setA (eraseA (setA b f₀ (rewriteItem fm item₀).1) f₀)
            (newNameOf digest fm f₀ item₀)
            (withName (rewriteItem fm item₀).1
              (newNameOf digest fm f₀ item₀)))).Nodup := by
          apply nodup_keysA_setA
          rw [hkeyse]
          exact hnd.erase f₀
        have hsub2 : ∀ f ∈ rest,
            f ∈ keysA (setA (eraseA (setA b f₀ (rewriteItem fm item₀).1) f₀)
              (newNameOf digest fm f₀ item₀)
              (withName (rewriteItem fm item₀).1
                (newNameOf digest fm f₀ item₀))) := by
          intro f hf
          apply mem_keysA_setA_of_mem
          rw [hkeyse]
          have hne : f ≠ f₀ := fun hh => hf₀rest (by rw [← hh]; exact hf)
          exact (List.mem_erase_of_ne hne).mpr
            (hsub f (List.mem_cons_of_mem _ hf))
        have hfm2 : ∀ f ∈ rest,
            f ∉ keysA (fm ++ [(f₀, newNameOf digest fm f₀ item₀)]) := by
          intro f hf hin
          rw [show keysA (fm ++ [(f₀, newNameOf digest fm f₀ item₀)]) =
            keysA fm ++ [f₀] by simp [keysA], List.mem_append] at hin
          rcases hin with hin | hin
          · exact hfm f (List.mem_cons_of_mem _ hf) hin
          · have : f = f₀ := by simpa using hin
            exact hf₀rest (this ▸ hf)
        obtain ⟨d, hd1, hd2, hd3, hd4, hd5, hd6⟩ :=
          ih (setA (eraseA (setA b f₀ (rewriteItem fm item₀).1) f₀)
              (newNameOf digest fm f₀ item₀)
              (withName (rewriteItem fm item₀).1
                (newNameOf digest fm f₀ item₀)))
            (fm ++ [(f₀, newNameOf digest fm f₀ item₀)])
            hnd2 hrest' hsub2 hfm2
        have hdk : ∀ e ∈ d, e.1 ≠ f₀ := by
          intro e he heq
          exact hf₀rest (heq ▸ hd2.subset (List.mem_map_of_mem Prod.fst he))
        refine ⟨(f₀, newNameOf digest fm f₀ item₀) :: d, ?_, ?_, ?_, ?_, ?_, ?_⟩
        · rw [hfold, hst, hd1]
          simp
        · exact hd2.cons₂ f₀
        · intro e he
          rcases List.mem_cons.mp he with rfl | he'
          · exact ⟨(rewriteItem fm item₀).2, rfl, hhtmlf, hren⟩
          · exact hd3 e he'
        · rw [hfold, hst]
          exact hd4
        · intro g hg hv
          have hg' : g ∉ rest := fun hh => hg (List.mem_cons_of_mem _ hh)
          have hgf₀ : g ≠ f₀ := fun hh => hg (hh ▸ List.mem_cons_self _ _)
          have hgn₀ : newNameOf digest fm f₀ item₀ ≠ g :=
            hv (f₀, newNameOf digest fm f₀ item₀) (List.mem_cons_self _ _)
          rw [hfold, hst,
            hd5 g hg' (fun e he => hv e (List.mem_cons_of_mem _ he)),
            getA_setA_ne _ _ g _ (fun hh => hgn₀ hh.symm),
            getA_eraseA_ne _ f₀ g hgf₀, getA_setA_ne b f₀ g _ hgf₀]
        · intro f hfmem hvf
          rcases List.mem_cons.mp hfmem with rfl | hfmem'
          · rw [fmSeen_head]
            refine ⟨item₀, hitem, ?_, ?_, ?_, ?_, ?_⟩
            · intro n' hn'
              rcases List.mem_cons.mp hn' with hh | hh
              · exact (Prod.ext_iff.mp hh).2
              · exact absurd rfl (hdk (f, n') hh)
            · constructor
              · intro _
                exact ⟨hhtmlf, hren⟩
              · intro _
                exact List.mem_cons_self _ _
            · intro hh
              rw [hhtmlf] at hh
              cases hh
            · intro _ hh
              exact absurd hh hren
            · intro _ _ hh3 hh4
              have hnrest : newNameOf digest fm f item₀ ∉ rest :=
                fun hh => hh3 (List.mem_cons_of_mem _ hh)
              have hv' : ∀ e ∈ d, e.2 ≠ newNameOf digest fm f item₀ := by
                intro e he
                exact hh4 e (List.mem_cons_of_mem _ he) (hdk e he)
              rw [hfold, hst, hd5 _ hnrest hv', getA_setA_self]
          · have hfn₀ : newNameOf digest fm f₀ item₀ ≠ f :=
              hvf (f₀, newNameOf digest fm f₀ item₀) (List.mem_cons_self _ _)
            have hff₀ : f ≠ f₀ := fun hh => hf₀rest (hh ▸ hfmem')
            have foc := hd6 f hfmem'
              (fun e he => hvf e (List.mem_cons_of_mem _ he))
            rw [fmSeen_later_renamed fm d f₀ _ f rest hff₀ hdk]
            obtain ⟨item₁, hitem₁, h1, h2, h3, h4, h5⟩ := foc
            rw [getA_setA_ne _ _ f _ (fun hh => hfn₀ hh.symm),
              getA_eraseA_ne _ f₀ f hff₀,
              getA_setA_ne b f₀ f _ hff₀] at hitem₁
            refine ⟨item₁, hitem₁, ?_, ?_, ?_, ?_, ?_⟩
            · intro n' hn'
              rcases List.mem_cons.mp hn' with hh | hh
              · injection hh with hh1 _
                exact absurd hh1 hff₀
              · exact h1 n' hh
            · rw [show keysA ((f₀, newNameOf digest fm f₀ item₀) :: d) =
                f₀ :: keysA d from rfl, List.mem_cons]
              constructor
              · rintro (hh | hh)
                · exact absurd hh hff₀
                · exact h2.mp hh
              · intro hh
                exact Or.inr (h2.mpr hh)
            · intro hh
              rw [hfold, hst]
              exact h3 hh
            · intro hh1 hh2
              rw [hfold, hst]
              exact h4 hh1 hh2
            · intro hh1 hh2 hh3 hh4
              rw [hfold, hst]
              exact h5 hh1 hh2
                (fun hmem => hh3 (List.mem_cons_of_mem _ hmem))
                (fun e he hne => hh4 e (List.mem_cons_of_mem _ he) hne)

/-! ### Topological sort: cycle-tolerant DFS -/

/-- A declared dependency edge considered by the Grapher: c is among a's
declared outbound references and is present in the output set. -/
def DepEdge (b : Bundle) (a c : Str) : Prop :=
  c ∈ getDeps b a ∧ (getA b c).isSome

instance (b : Bundle) (a c : Str) : Decidable (DepEdge b a c) := by
  unfold DepEdge
  infer_instance

/-- Reachability along declared dependency edges. -/
def Reaches (b : Bundle) : Str → Str → Prop :=
  Relation.ReflTransGen (DepEdge b)

/-- The partial topological-order property of an emitted linearization:
a dependency not connected back by a cycle is emitted first. -/
def OrdProp (b : Bundle) (l : List Str) : Prop :=
  ∀ a c, a ∈ l → DepEdge b a c → ¬ Reaches b c a → List.Sublist [c, a] l

/-- The traversal invariant: the emission list has no duplicates, agrees
with the finished set, only mentions artifacts of the output set, and
satisfies the order property. -/
def TopoInv (b : Bundle) (st : TopoState) : Prop :=
  st.sorted.Nodup ∧ (∀ x, x ∈ st.sorted ↔ x ∈ st.visited) ∧
    (∀ x ∈ st.sorted, x ∈ keysA b) ∧ OrdProp b st.sorted

theorem visit_succ (b : Bundle) (fuel : Nat) (st : TopoState) (f : Str) :
    visit b (Nat.succ fuel) st f =
      if f ∈ st.visited ∨ f ∈ st.visiting then st
      else
        { sorted := ((getDeps b f).foldl
            (fun s d => if (getA b d).isSome then visit b fuel s d else s)
            { st with visiting := f :: st.visiting }).sorted ++ [f],
          visited := f :: ((getDeps b f).foldl
            (fun s d => if (getA b d).isSome then visit b fuel s d else s)
            { st with visiting := f :: st.visiting }).visited,
          visiting := (((getDeps b f).foldl
            (fun s d => if (getA b d).isSome then visit b fuel s d else s)
            { st with visiting := f :: st.visiting }).visiting).erase f } := rfl

theorem mem_keysA_of_getA_isSome {α : Type} (l : List (Str × α)) (k : Str)
    (h : (getA l k).isSome) : k ∈ keysA l := by
  induction l with
  | nil => simp [getA] at h
  | cons e rest ih =>
    by_cases he : e.1 = k
    · simp only [keysA, List.map_cons]
      rw [← he]
      exact List.mem_cons_self _ _
    · simp only [getA, if_neg he] at h
      simp only [keysA, List.map_cons, List.mem_cons]
      exact Or.inr (ih h)

/-- The traversal stack is restored on return. -/
theorem visit_visiting (b : Bundle) :
    ∀ fuel st f, (visit b fuel st f).visiting = st.visiting := by
  intro fuel
  induction fuel with
  | zero => intro st f; rfl
  | succ fuel ih =>
    intro st f
    rw [visit_succ]
    by_cases h : f ∈ st.visited ∨ f ∈ st.visiting
    · rw [if_pos h]
    · rw [if_neg h]
      have hfold : ∀ (l : List Str) (s : TopoState),
          ((l.foldl (fun s d => if (getA b d).isSome then visit b fuel s d else s) s)).visiting = s.visiting := by
        intro l
        induction l with
        | nil => intro s; rfl
        | cons d rest ihl =>
          intro s
          rw [List.foldl_cons, ihl]
          by_cases hd : (getA b d).isSome
          · rw [if_pos hd, ih]
          · rw [if_neg hd]
      simp only [hfold]
      exact List.erase_cons_head f st.visiting

/-- The count used to bound the recursion depth: artifacts not on the
traversal stack. -/
def countFree (b : Bundle) (st : TopoState) : Nat :=
  ((keysA b).filter (fun x => decide (x ∉ st.visiting))).length

theorem countFree_push_aux (univ vis : List Str) (f : Str)
    (hnd : univ.Nodup) (hf : f ∈ univ) (hfv : f ∉ vis) :
    (univ.filter (fun x => decide (x ∉ f :: vis))).length + 1 =
      (univ.filter (fun x => decide (x ∉ vis))).length := by
  induction univ with
  | nil => simp at hf
  | cons x rest ih =>
    have hndr : rest.Nodup := (List.nodup_cons.mp hnd).2
    have hxr : x ∉ rest := (List.nodup_cons.mp hnd).1
    by_cases hxf : x = f
    · subst hxf
      have h1 : (decide (x ∉ x :: vis)) = false := by simp
      have h2 : (decide (x ∉ vis)) = true := by simpa using hfv
      rw [List.filter_cons, List.filter_cons, h1, h2]
      simp only [List.length_cons]
      have hcong : ∀ y ∈ rest, (decide (y ∉ x :: vis)) = (decide (y ∉ vis)) := by
        intro y hy
        have hyx : y ≠ x := fun hh => hxr (hh ▸ hy)
        simp [List.mem_cons, hyx]
      rw [List.filter_congr hcong]
      simp
    · have hfr : f ∈ rest := by
        rcases List.mem_cons.mp hf with hh | hh
        · exact absurd hh.symm hxf
        · exact hh
      rw [List.filter_cons, List.filter_cons]
      have hsame : (decide (x ∉ f :: vis)) = (decide (x ∉ vis)) := by
        simp [List.mem_cons, hxf]
      rw [hsame]
      by_cases hxv : (decide (x ∉ vis)) = true
      · rw [hxv]
        have := ih hndr hfr
        simp only [if_true, List.length_cons]
        omega
      · have hxv2 : (decide (x ∉ vis)) = false := by simpa using hxv
        rw [hxv2]
        have := ih hndr hfr
        simp only [Bool.false_eq_true, if_false]
        omega

theorem countFree_push (b : Bundle) (vis : List Str) (f : Str)
    (hnd : (keysA b).Nodup) (hf : f ∈ keysA b) (hfv : f ∉ vis) :
    ((keysA b).filter (fun x => decide (x ∉ f :: vis))).length + 1 =
      ((keysA b).filter (fun x => decide (x ∉ vis))).length :=
  countFree_push_aux (keysA b) vis f hnd hf hfv

/-- Main invariant of the cycle-tolerant depth-first visit: the
traversal invariant is preserved, the finished set only grows, the
visited node ends up finished unless it was on the stack, and nodes
newly finished were not on the stack. -/
theorem visit_main (b : Bundle) (hnd : (keysA b).Nodup) :
    ∀ fuel st f,
      f ∈ keysA b →
      (∀ v ∈ st.visiting, v ∈ keysA b) →
      countFree b st + 1 ≤ fuel →
      (∀ v ∈ st.visiting, Reaches b v f) →
      TopoInv b st →
      TopoInv b (visit b fuel st f) ∧
      (∀ x ∈ st.visited, x ∈ (visit b fuel st f).visited) ∧
      (f ∈ (visit b fuel st f).visited ∨ f ∈ st.visiting) ∧
      (∀ x ∈ (visit b fuel st f).visited,
        x ∈ st.visited ∨ x ∉ st.visiting) := by
  intro fuel
  induction fuel with
  | zero =>
    intro st f _ _ hfuel _ _
    exact absurd hfuel (by omega)
  | succ fuel ih =>
    intro st f hfk hvisk hfuel hstack hinv
    rw [visit_succ]
    by_cases hskip : f ∈ st.visited ∨ f ∈ st.visiting
    · rw [if_pos hskip]
      exact ⟨hinv, fun x hx => hx, hskip.imp id id, fun x hx => Or.inl hx⟩
    · rw [if_neg hskip]
      push_neg at hskip
      have hcf : countFree b { st with visiting := f :: st.visiting } + 1 =
          countFree b st := by
        unfold countFree
        exact countFree_push b st.visiting f hnd hfk hskip.2
      have hfoldgen : ∀ (l : List Str), (∀ d ∈ l, d ∈ getDeps b f) →
          ∀ s : TopoState, s.visiting = f :: st.visiting →
          TopoInv b s →
          TopoInv b (l.foldl
            (fun s d => if (getA b d).isSome then visit b fuel s d else s) s) ∧
          (l.foldl
            (fun s d => if (getA b d).isSome then visit b fuel s d else s)
              s).visiting = f :: st.visiting ∧
          (∀ x ∈ s.visited, x ∈ (l.foldl
            (fun s d => if (getA b d).isSome then visit b fuel s d else s)
              s).visited) ∧
          (∀ d ∈ l, (getA b d).isSome → d ∈ (l.foldl
            (fun s d => if (getA b d).isSome then visit b fuel s d else s)
              s).visited ∨ d ∈ f :: st.visiting) ∧
          (∀ x ∈ (l.foldl
            (fun s d => if (getA b d).isSome then visit b fuel s d else s)
              s).visited, x ∈ s.visited ∨ x ∉ f :: st.visiting) := by
        intro l
        induction l with
        | nil =>
          intro _ s hsvis hsinv
          exact ⟨hsinv, hsvis, fun x hx => hx, by simp, fun x hx => Or.inl hx⟩
        | cons d rest ihl =>
          intro hl s hsvis hsinv
          rw [List.foldl_cons]
          by_cases hds : (getA b d).isSome
          · rw [if_pos hds]
            have hdk : d ∈ keysA b := mem_keysA_of_getA_isSome b d hds
            have hvk : ∀ v ∈ s.visiting, v ∈ keysA b := by
              rw [hsvis]
              intro v hv
              rcases List.mem_cons.mp hv with rfl | hv'
              · exact hfk
              · exact hvisk v hv'
            have hsfuel : countFree b s + 1 ≤ fuel := by
              have : countFree b s =
                  countFree b { st with visiting := f :: st.visiting } := by
                unfold countFree
                rw [hsvis]
              omega
            have hsstack : ∀ v ∈ s.visiting, Reaches b v d := by
              rw [hsvis]
              intro v hv
              have hedge : DepEdge b f d :=
                ⟨hl d (List.mem_cons_self _ _), hds⟩
              rcases List.mem_cons.mp hv with rfl | hv'
              · exact Relation.ReflTransGen.single hedge
              · exact (hstack v hv').tail hedge
            obtain ⟨hi1, hi2, hi3, hi4⟩ :=
              ih s d hdk hvk hsfuel hsstack hsinv
            have hvis' : (visit b fuel s d).visiting = f :: st.visiting := by
              rw [visit_visiting, hsvis]
            obtain ⟨hr1, hr2, hr3, hr4, hr5⟩ :=
              ihl (fun d' hd' => hl d' (List.mem_cons_of_mem _ hd'))
                (visit b fuel s d) hvis' hi1
            refine ⟨hr1, hr2, fun x hx => hr3 x (hi2 x hx), ?_, ?_⟩
            · intro d' hd' hd's
              rcases List.mem_cons.mp hd' with rfl | hd''
              · rcases hi3 with hh | hh
                · exact Or.inl (hr3 _ hh)
                · rw [hsvis] at hh
                  exact Or.inr hh
              · exact hr4 d' hd'' hd's
            · intro x hx
              rcases hr5 x hx with hh | hh
              · rcases hi4 x hh with hh2 | hh2
                · exact Or.inl hh2
                · rw [hsvis] at hh2
                  exact Or.inr hh2
              · exact Or.inr hh
          · rw [if_neg hds]
            obtain ⟨hr1, hr2, hr3, hr4, hr5⟩ :=
              ihl (fun d' hd' => hl d' (List.mem_cons_of_mem _ hd')) s hsvis hsinv
            refine ⟨hr1, hr2, hr3, ?_, hr5⟩
            intro d' hd' hd's
            rcases List.mem_cons.mp hd' with rfl | hd''
            · exact absurd hd's hds
            · exact hr4 d' hd'' hd's
      have hst1inv : TopoInv b { st with visiting := f :: st.visiting } := hinv
      obtain ⟨h2inv, h2vis, h2mono, h2dep, h2new⟩ :=
        hfoldgen (getDeps b f) (fun d hd => hd)
          { st with visiting := f :: st.visiting } rfl hst1inv
      obtain ⟨hsnd, hsv, hsu, hord⟩ := h2inv
      have hfnotvisited2 :
          f ∉ ((getDeps b f).foldl
            (fun s d => if (getA b d).isSome then visit b fuel s d else s)
            { st with visiting := f :: st.visiting }).visited := by
        intro hmem
        rcases h2new f hmem with hh | hh
        · exact hskip.1 hh
        · exact hh (List.mem_cons_self _ _)
      have hfnotsorted :
          f ∉ ((getDeps b f).foldl
            (fun s d => if (getA b d).isSome then visit b fuel s d else s)
            { st with visiting := f :: st.visiting }).sorted :=
        fun hh => hfnotvisited2 ((hsv f).mp hh)
      refine ⟨⟨?_, ?_, ?_, ?_⟩, ?_, ?_, ?_⟩
      · simp only [List.nodup_append, List.nodup_cons, List.nodup_nil]
        exact ⟨hsnd, by simp, by simpa using hfnotsorted⟩
      · intro x
        simp only [List.mem_append, List.mem_cons, List.not_mem_nil, or_false]
        constructor
        · rintro (hh | rfl)
          · exact Or.inr ((hsv x).mp hh)
          · exact Or.inl rfl
        · rintro (rfl | hh)
          · exact Or.inr rfl
          · exact Or.inl ((hsv x).mpr hh)
      · intro x hx
        rcases List.mem_append.mp hx with hh | hh
        · exact hsu x hh
        · rw [List.mem_singleton.mp hh]
          exact hfk
      · intro a c ha hedge hnreach
        rcases List.mem_append.mp ha with hh | hh
        · exact (hord a c hh hedge hnreach).trans
            (List.sublist_append_left _ _)
        · rw [List.mem_singleton.mp hh] at hedge hnreach ⊢
          rcases h2dep c hedge.1 hedge.2 with hc | hc
          · have : List.Sublist [c] ((getDeps b f).foldl
                (fun s d => if (getA b d).isSome then visit b fuel s d else s)
                { st with visiting := f :: st.visiting }).sorted :=
              List.singleton_sublist.mpr ((hsv c).mpr hc)
            exact this.append (List.Sublist.refl [f])
          · rcases List.mem_cons.mp hc with rfl | hc'
            · exact absurd Relation.ReflTransGen.refl hnreach
            · exact absurd (hstack c hc') hnreach
      · intro x hx
        exact List.mem_cons_of_mem _ (h2mono x hx)
      · exact Or.inl (List.mem_cons_self _ _)
      · intro x hx
        rcases List.mem_cons.mp hx with rfl | hx'
        · exact Or.inr hskip.2
        · rcases h2new x hx' with hh | hh
          · exact Or.inl hh
          · exact Or.inr (fun hmem => hh (List.mem_cons_of_mem _ hmem))

/-- The full topological sort: a duplicate-free linearization of exactly
the output set's names, respecting the dependency order outside cycles. -/
theorem topoSort_spec (b : Bundle) (hnd : (keysA b).Nodup) :
    (topoSort b).Nodup ∧ (∀ x, x ∈ topoSort b ↔ x ∈ keysA b) ∧
      OrdProp b (topoSort b) := by
  have hczero : ∀ s : TopoState, s.visiting = [] →
      countFree b s = (keysA b).length := by
    intro s hs
    unfold countFree
    rw [hs]
    rw [List.filter_congr (fun y _ => by simp : ∀ y ∈ keysA b,
      (decide (y ∉ ([] : List Str))) = true)]
    simp
  have hmain : ∀ (l : List Str), (∀ x ∈ l, x ∈ keysA b) →
      ∀ s : TopoState, TopoInv b s → s.visiting = [] →
      TopoInv b (l.foldl (visit b ((keysA b).length + 1)) s) ∧
      (l.foldl (visit b ((keysA b).length + 1)) s).visiting = [] ∧
      (∀ x ∈ s.visited,
        x ∈ (l.foldl (visit b ((keysA b).length + 1)) s).visited) ∧
      (∀ x ∈ l, x ∈ (l.foldl (visit b ((keysA b).length + 1)) s).visited) := by
    intro l
    induction l with
    | nil =>
      intro _ s hsinv hsvis
      exact ⟨hsinv, hsvis, fun x hx => hx, by simp⟩
    | cons x rest ihl =>
      intro hl s hsinv hsvis
      rw [List.foldl_cons]
      have hxk : x ∈ keysA b := hl x (List.mem_cons_self _ _)
      have hvk : ∀ v ∈ s.visiting, v ∈ keysA b := by
        rw [hsvis]; simp
      have hsfuel : countFree b s + 1 ≤ (keysA b).length + 1 := by
        rw [hczero s hsvis]
      have hsstack : ∀ v ∈ s.visiting, Reaches b v x := by
        rw [hsvis]; simp
      obtain ⟨hi1, hi2, hi3, _⟩ :=
        visit_main b hnd ((keysA b).length + 1) s x hxk hvk hsfuel hsstack hsinv
      have hvis' : (visit b ((keysA b).length + 1) s x).visiting = [] := by
        rw [visit_visiting, hsvis]
      obtain ⟨hr1, hr2, hr3, hr4⟩ :=
        ihl (fun y hy => hl y (List.mem_cons_of_mem _ hy))
          (visit b ((keysA b).length + 1) s x) hi1 hvis'
      refine ⟨hr1, hr2, fun y hy => hr3 y (hi2 y hy), ?_⟩
      intro y hy
      rcases List.mem_cons.mp hy with rfl | hy'
      · rcases hi3 with hh | hh
        · exact hr3 y hh
        · rw [hsvis] at hh
          cases hh
      · exact hr4 y hy'
  have hinv0 : TopoInv b { sorted := [], visited := [], visiting := [] } := by
    refine ⟨List.nodup_nil, by simp, by simp, ?_⟩
    intro a c ha
    cases ha
  obtain ⟨⟨hnd2, hiff, hsub, hord⟩, _, _, hall⟩ :=
    hmain (keysA b) (fun x hx => hx)
      { sorted := [], visited := [], visiting := [] } hinv0 rfl
  refine ⟨hnd2, ?_, hord⟩
  intro x
  constructor
  · intro hx
    exact hsub x hx
  · intro hx
    exact (hiff x).mpr (hall x hx)

/-- Claim C1: the Dependency Grapher's depth-first traversal over the
output set terminates and emits a linearization containing every
artifact of the output set exactly once (even with cyclic dependency
edges), and for every artifact a with a declared dependency on an
artifact c present in the output set, when a and c are not connected by
a dependency cycle, c appears before a in the sequence. -/
theorem topoSort_complete_and_ordered (b : Bundle)
    (hnd : (keysA b).Nodup) :
    (topoSort b).Nodup ∧ (∀ x, x ∈ topoSort b ↔ x ∈ keysA b) ∧
      (∀ a c, a ∈ keysA b → DepEdge b a c →
        ¬ (Reaches b a c ∧ Reaches b c a) →
        List.Sublist [c, a] (topoSort b)) := by
  obtain ⟨h1, h2, h3⟩ := topoSort_spec b hnd
  refine ⟨h1, h2, ?_⟩
  intro a c ha hedge hnocyc
  have hnreach : ¬ Reaches b c a := fun hh =>
    hnocyc ⟨Relation.ReflTransGen.single hedge, hh⟩
  exact h3 a c ((h2 a).mpr ha) hedge hnreach

/-- Witness for C1: a concrete two-artifact output set with one
dependency edge; the dependent artifact's dependency is emitted first,
and the linearization covers both exactly once. -/
theorem topoSort_complete_and_ordered_witness :
    List.Sublist [("b.js").data, ("a.js").data]
      (topoSort
        [(("a.js").data,
          Item.chunk (("a.js").data) (("ref").data) [("b.js").data] [] [] []),
         (("b.js").data,
          Item.chunk (("b.js").data) (("x").data) [] [] [] [])]) := by
  refine (topoSort_complete_and_ordered _ (by decide)).2.2
    (("a.js").data) (("b.js").data) (by decide) (by decide) ?_
  rintro ⟨-, hreach⟩
  rw [Reaches] at hreach
  rcases (Relation.ReflTransGen.cases_head hreach) with hh | ⟨u, hstep, -⟩
  · exact absurd hh (by decide)
  · have hmem : u ∈ getDeps
        [(("a.js").data,
          Item.chunk (("a.js").data) (("ref").data) [("b.js").data] [] [] []),
         (("b.js").data,
          Item.chunk (("b.js").data) (("x").data) [] [] [] [])]
        (("b.js").data) := hstep.1
    have hnil : getDeps
        [(("a.js").data,
          Item.chunk (("a.js").data) (("ref").data) [("b.js").data] [] [] []),
         (("b.js").data,
          Item.chunk (("b.js").data) (("x").data) [] [] [] [])]
        (("b.js").data) = [] := by decide
    rw [hnil] at hmem
    exact absurd hmem (List.not_mem_nil u)

/-! ### Corollaries about the processing order -/

theorem regsOf_nodup (b : Bundle) (hnd : (keysA b).Nodup) :
    (regsOf b).Nodup :=
  ((topoSort_spec b hnd).1).filter _

theorem mem_regsOf (b : Bundle) (hnd : (keysA b).Nodup) (f : Str) :
    f ∈ regsOf b ↔ f ∈ keysA b ∧ isManifestName f = false := by
  unfold regsOf
  rw [List.mem_filter]
  constructor
  · rintro ⟨h1, h2⟩
    exact ⟨((topoSort_spec b hnd).2.1 f).mp h1, by simpa using h2⟩
  · rintro ⟨h1, h2⟩
    exact ⟨((topoSort_spec b hnd).2.1 f).mpr h1, by simp [h2]⟩

theorem mem_mansOf (b : Bundle) (hnd : (keysA b).Nodup) (f : Str) :
    f ∈ mansOf b ↔ f ∈ keysA b ∧ isManifestName f = true := by
  unfold mansOf
  rw [List.mem_filter]
  constructor
  · rintro ⟨h1, h2⟩
    exact ⟨((topoSort_spec b hnd).2.1 f).mp h1, h2⟩
  · rintro ⟨h1, h2⟩
    exact ⟨((topoSort_spec b hnd).2.1 f).mpr h1, h2⟩

/-- Instantiation of the loop characterization for generateBundle (the
loop starts with an empty rename map over the regular-file order). -/
theorem generateBundle_loop_char (digest : Content → Str) (b : Bundle)
    (hnd : (keysA b).Nodup) :
    List.Sublist ((generateBundle digest b).2.map Prod.fst) (regsOf b) ∧
    (∀ e ∈ (generateBundle digest b).2, ∃ c,
      e.2 = joinPath (dirname e.1) (digest c ++ extname e.1) ∧
      endsW e.1 (".html").data = false ∧ e.2 ≠ e.1) ∧
    (keysA (processRegulars digest (b, []) (regsOf b)).1).Nodup ∧
    (∀ g, g ∉ regsOf b → (∀ e ∈ (generateBundle digest b).2, e.2 ≠ g) →
      getA (processRegulars digest (b, []) (regsOf b)).1 g = getA b g) ∧
    (∀ f ∈ regsOf b, (∀ e ∈ (generateBundle digest b).2, e.2 ≠ f) →
      FileOutcomeAt digest b (generateBundle digest b).2 (regsOf b)
        (processRegulars digest (b, []) (regsOf b)).1 f
        (fmSeen [] (generateBundle digest b).2 (regsOf b) f)) := by
  obtain ⟨d, hd1, hd2, hd3, hd4, hd5, hd6⟩ :=
    processRegulars_char digest (regsOf b) b []
      hnd (regsOf_nodup b hnd)
      (fun f hf => ((mem_regsOf b hnd f).mp hf).1)
      (fun f _ => by simp [keysA])
  have hout : (generateBundle digest b).2 = d := by
    rw [generateBundle_eq]
    simpa using hd1
  rw [hout]
  exact ⟨hd2, hd3, hd4, hd5, hd6⟩

/-! ### Frame lemmas for the source-map and manifest passes -/

theorem getA_mem {α : Type} (l : List (Str × α)) (k : Str) (v : α)
    (h : getA l k = some v) : (k, v) ∈ l := by
  induction l with
  | nil => simp [getA] at h
  | cons e rest ih =>
    by_cases he : e.1 = k
    · simp only [getA, if_pos he] at h
      have hev : e = (k, v) := Prod.ext_iff.mpr ⟨he, Option.some_inj.mp h⟩
      rw [← hev]
      exact List.mem_cons_self _ _
    · simp only [getA, if_neg he] at h
      exact List.mem_cons_of_mem _ (ih h)

/-- The textual content of an artifact, when it has one. -/
def itemText : Item → Option Str
  | .asset _ (.str s) => some s
  | .asset _ (.bytes _) => none
  | .chunk _ code _ _ _ _ => some code

/-- Total extraction of a string-asset's source (empty otherwise),
convenient for computations in concrete scenarios. -/
def sourceTextOf (b : Bundle) (k : Str) : Str :=
  match getA b k with
  | some (.asset _ (.str s)) => s
  | _ => []

theorem mapPassStep_frame (fm : List (Str × Str)) (b : Bundle)
    (e : Str × Str) (g : Str)
    (hv : ∀ e' ∈ fm, e'.2 ≠ g) :
    getA (mapPassStep fm b e) g = getA b g := by
  unfold mapPassStep
  by_cases h1 : endsW e.1 (".map").data
  · rw [if_pos h1]
    split
    · rfl
    · next ns heq =>
      split
      · next fn code im dyn ia ic _ =>
        have hns : ns ≠ g := hv (_, ns) (getA_mem _ _ _ heq)
        exact getA_setA_ne b ns g _ (fun hh => hns hh.symm)
      · rfl
  · rw [if_neg h1]

theorem mapPass_frame (fm : List (Str × Str)) (g : Str)
    (hv : ∀ e ∈ fm, e.2 ≠ g) (b : Bundle) :
    getA (mapPass b fm) g = getA b g := by
  unfold mapPass
  have haux : ∀ (l : List (Str × Str)) (b : Bundle),
      getA (l.foldl (mapPassStep fm) b) g = getA b g := by
    intro l
    induction l with
    | nil => intro b; rfl
    | cons e rest ih =>
      intro b
      rw [List.foldl_cons, ih, mapPassStep_frame fm b e g hv]
  exact haux fm b

/-- The source-map pass modifies only chunks: an entry holding a
byte-content asset is untouched. -/
theorem mapPass_bytes_frame (fm : List (Str × Str)) (g fn : Str)
    (bs : List Nat) :
    ∀ (l : List (Str × Str)) (b : Bundle),
      getA b g = some (.asset fn (.bytes bs)) →
      getA (l.foldl (mapPassStep fm) b) g = some (.asset fn (.bytes bs)) := by
  intro l
  induction l with
  | nil => intro b hb; exact hb
  | cons e rest ih =>
    intro b hb
    rw [List.foldl_cons]
    apply ih
    unfold mapPassStep
    by_cases h1 : endsW e.1 (".map").data
    · rw [if_pos h1]
      split
      · exact hb
      · next ns heq =>
        split
        · next fn2 code im dyn ia ic hbn =>
          have hnsg : ns ≠ g := by
            intro hh
            rw [hh, hb] at hbn
            cases hbn
          rw [getA_setA_ne b ns g _ (fun hh => hnsg hh.symm)]
          exact hb
        · exact hb
    · rw [if_neg h1]
      exact hb

/-- Occurrences of a pattern cannot be introduced into any artifact's
text by the source-map pass when the pattern is SafeRepl against every
applied replacement base name. -/
theorem mapPass_infix_pres (fm : List (Str × Str)) (p : Str) :
    ∀ (l : List (Str × Str)), (∀ e ∈ l, SafeRepl p (basename e.2)) →
      ∀ (b : Bundle) (g : Str),
      (∀ item t, getA b g = some item → itemText item = some t →
        ¬ p <:+: t) →
      ∀ item t, getA (l.foldl (mapPassStep fm) b) g = some item →
        itemText item = some t → ¬ p <:+: t := by
  intro l
  induction l with
  | nil => intro _ b g hb; exact hb
  | cons e rest ih =>
    intro hl b g hb
    rw [List.foldl_cons]
    apply ih (fun e' he' => hl e' (List.mem_cons_of_mem _ he'))
    intro item t hitem htext
    unfold mapPassStep at hitem
    by_cases h1 : endsW e.1 (".map").data
    · rw [if_pos h1] at hitem
      revert hitem
      split
      · intro hitem
        exact hb item t hitem htext
      · next ns heq =>
        split
        · next fn2 code im dyn ia ic hbn =>
          intro hitem
          by_cases hg : ns = g
          · subst hg
            rw [getA_setA_self] at hitem
            cases Option.some_inj.mp hitem
            simp only [itemText] at htext
            cases Option.some_inj.mp htext
            exact not_infix_replaceAll_other p (basename e.1) (basename e.2)
              (hl e (List.mem_cons_self _ _)) code
              (hb _ code hbn rfl)
          · rw [getA_setA_ne b ns g _ (fun hh => hg hh.symm)] at hitem
            exact hb item t hitem htext
        · intro hitem
          exact hb item t hitem htext
    · rw [if_neg h1] at hitem
      exact hb item t hitem htext

theorem processManifest_frame (fm : List (Str × Str)) (b : Bundle)
    (f g : Str) (hne : g ≠ f) :
    getA (processManifest fm b f) g = getA b g := by
  unfold processManifest
  split
  · exact getA_setA_ne b f g _ hne
  · rfl

theorem manifestFold_frame (fm : List (Str × Str)) (g : Str) :
    ∀ (mans : List Str), g ∉ mans → ∀ b : Bundle,
      getA (mans.foldl (processManifest fm) b) g = getA b g := by
  intro mans
  induction mans with
  | nil => intro _ b; rfl
  | cons f rest ih =>
    intro hg b
    rw [List.foldl_cons,
      ih (fun hh => hg (List.mem_cons_of_mem _ hh)) _,
      processManifest_frame fm b f g (fun hh => hg (hh ▸ List.mem_cons_self _ _))]

/-- The manifest pass modifies only string assets: an entry whose
content is raw bytes is untouched even at a manifest-like name. -/
theorem processManifest_bytes_frame (fm : List (Str × Str)) (b : Bundle)
    (f g fn : Str) (bs : List Nat)
    (hb : getA b g = some (.asset fn (.bytes bs))) :
    getA (processManifest fm b f) g = some (.asset fn (.bytes bs)) := by
  by_cases hg : g = f
  · subst hg
    unfold processManifest
    split
    · next fn2 content heq =>
      rw [heq] at hb
      cases hb
    · exact hb
  · rw [processManifest_frame fm b f g hg]
    exact hb

theorem manifestFold_bytes_frame (fm : List (Str × Str)) (g fn : Str)
    (bs : List Nat) :
    ∀ (mans : List Str) (b : Bundle),
      getA b g = some (.asset fn (.bytes bs)) →
      getA (mans.foldl (processManifest fm) b) g =
        some (.asset fn (.bytes bs)) := by
  intro mans
  induction mans with
  | nil => intro b hb; exact hb
  | cons f rest ih =>
    intro b hb
    rw [List.foldl_cons]
    exact ih _ (processManifest_bytes_frame fm b f g fn bs hb)

/-! ### Path shape lemmas -/

theorem dropWhile_head_false {α : Type} (p : α → Bool) :
    ∀ (l : List α) (c : α) (t : List α), l.dropWhile p = c :: t → p c = false := by
  intro l
  induction l with
  | nil => intro c t h; cases h
  | cons x rest ih =>
    intro c t h
    rw [List.dropWhile_cons] at h
    by_cases hx : p x
    · rw [if_pos hx] at h
      exact ih c t h
    · rw [if_neg hx] at h
      cases h
      simpa using hx

theorem basename_suffix (p : Str) : basename p <:+ p := by
  unfold basename
  have h1 : p.reverse.takeWhile (fun c => c ≠ slashC) <+: p.reverse :=
    List.takeWhile_prefix _
  have h2 := h1.reverse
  rw [List.reverse_reverse] at h2
  exact h2

theorem extname_shape (p : Str) :
    extname p = [] ∨ ∃ a, extname p = dotC :: a ∧ dotC ∉ a := by
  unfold extname
  by_cases h : ((basename p).reverse.takeWhile (fun c => c ≠ dotC)).reverse.length + 1 ≥
      (basename p).length
  · rw [if_pos h]
    exact Or.inl rfl
  · rw [if_neg h]
    refine Or.inr ⟨_, rfl, ?_⟩
    intro hmem
    have := List.mem_takeWhile_imp (by simpa using List.mem_reverse.mp hmem)
    simp at this

theorem extname_suffix (p : Str) : extname p <:+ p := by
  rcases extname_shape p with h | ⟨a, h, _⟩
  · rw [h]
    exact List.nil_suffix
  · have hsufb : extname p <:+ basename p := by
      unfold extname at h ⊢
      by_cases hc : ((basename p).reverse.takeWhile (fun c => c ≠ dotC)).reverse.length + 1 ≥
          (basename p).length
      · rw [if_pos hc] at h
        cases h
      · rw [if_neg hc]
        set bn := basename p with hbn
        set afterDot := (bn.reverse.takeWhile (fun c => c ≠ dotC)).reverse with had
        have hsplit : bn.reverse.takeWhile (fun c => c ≠ dotC) ++
            bn.reverse.dropWhile (fun c => c ≠ dotC) = bn.reverse :=
          List.takeWhile_append_dropWhile _ _
        rcases hdrop : bn.reverse.dropWhile (fun c => c ≠ dotC) with _ | ⟨c0, t0⟩
        · exfalso
          apply hc
          rw [hdrop, List.append_nil] at hsplit
          have : afterDot.length = bn.length := by
            rw [had, List.length_reverse, hsplit, List.length_reverse]
          omega
        · have hc0 : c0 = dotC := by
            have := dropWhile_head_false (fun c => decide (c ≠ dotC))
              bn.reverse c0 t0 hdrop
            simpa using this
          subst hc0
          have hbnrev : bn.reverse = afterDot.reverse ++ dotC :: t0 := by
            rw [had, List.reverse_reverse, ← hdrop, hsplit]
          have hbneq : bn = t0.reverse ++ dotC :: afterDot := by
            have := congrArg List.reverse hbnrev
            rw [List.reverse_reverse, List.reverse_append] at this
            simpa using this
          exact ⟨t0.reverse, by rw [hbneq]⟩
    exact hsufb.trans (basename_suffix p)

/-- Two suffixes of one list, compared: the shorter is a suffix of the
longer. -/
theorem suffix_of_suffix_length_le {α : Type} {l₁ l₂ s : List α}
    (h1 : l₁ <:+ s) (h2 : l₂ <:+ s) (hlen : l₁.length ≤ l₂.length) :
    l₁ <:+ l₂ := by
  have p1 := h1.reverse
  have p2 := h2.reverse
  have := List.prefix_of_prefix_length_le p1 p2 (by simpa using hlen)
  have h3 := this.reverse
  rwa [List.reverse_reverse, List.reverse_reverse] at h3

theorem suffix_eq_of_length {α : Type} {l₁ l₂ s : List α}
    (h1 : l₁ <:+ s) (h2 : l₂ <:+ s) (hlen : l₁.length = l₂.length) :
    l₁ = l₂ :=
  (suffix_of_suffix_length_le h1 h2 hlen.le).eq_of_length hlen

theorem suffix_cons_tail {α : Type} {σ : List α} {x : α} {l : List α}
    (h : σ <:+ x :: l) (hlen : σ.length ≤ l.length) : σ <:+ l :=
  suffix_of_suffix_length_le h (List.suffix_cons x l) (by simpa using hlen)

/-- A dotted, slash-free suffix of a digest-derived name must be the
preserved extension itself: the digest text contains no dot, and the
suffix cannot reach across the directory separator. -/
theorem ext_eq_of_suffix_join (dir dg ext σ' : Str)
    (hd1 : dg ≠ []) (hd2 : dotC ∉ dg)
    (hσslash : slashC ∉ dotC :: σ')
    (hext : ext = [] ∨ ∃ a, ext = dotC :: a ∧ dotC ∉ a)
    (h : (dotC :: σ') <:+ joinPath dir (dg ++ ext)) : ext = dotC :: σ' := by
  have core : ∀ hc : (dotC :: σ') <:+ dg ++ ext, ext = dotC :: σ' := by
    intro hc
    rcases hext with rfl | ⟨a, rfl, hadot⟩
    · rw [List.append_nil] at hc
      exact absurd (hc.mem (List.mem_cons_self _ _)) hd2
    · have hexts : (dotC :: a) <:+ dg ++ (dotC :: a) := List.suffix_append _ _
      rcases le_or_lt (dotC :: σ').length (dotC :: a).length with hle | hlt
      · rcases eq_or_lt_of_le hle with heq | hlt2
        · exact (suffix_eq_of_length hc hexts heq).symm
        · have hs2 : (dotC :: σ') <:+ (dotC :: a) :=
            suffix_of_suffix_length_le hc hexts hle
          have hs3 : (dotC :: σ') <:+ a := by
            apply suffix_cons_tail hs2
            simp only [List.length_cons] at hlt2 ⊢
            omega
          exact absurd (hs3.mem (List.mem_cons_self _ _)) hadot
      · have hs2 : (dotC :: a) <:+ (dotC :: σ') :=
          suffix_of_suffix_length_le hexts hc hlt.le
        obtain ⟨pre, hpre⟩ := hs2
        have hprene : pre ≠ [] := by
          intro h0
          rw [h0, List.nil_append] at hpre
          have := congrArg List.length hpre
          simp only [List.length_cons] at this hlt
          omega
        obtain ⟨w, hw⟩ := hc
        rw [← hpre, ← List.append_assoc] at hw
        have hdg : w ++ pre = dg := List.append_cancel_right hw
        rcases pre with _ | ⟨c0, pre'⟩
        · exact absurd rfl hprene
        · have hc0 : c0 = dotC := by
            have := congrArg (fun l => l.head?) hpre
            simpa using this
          subst hc0
          exfalso
          apply hd2
          rw [← hdg]
          exact List.mem_append_right w (List.mem_cons_self _ _)
  unfold joinPath at h
  by_cases hdir : dir = [dotC]
  · rw [if_pos hdir] at h
    exact core h
  · rw [if_neg hdir] at h
    have htail : (dg ++ ext) <:+ dir ++ [slashC] ++ (dg ++ ext) :=
      List.suffix_append _ _
    rcases le_or_lt (dotC :: σ').length (dg ++ ext).length with hle | hlt
    · exact core (suffix_of_suffix_length_le h htail hle)
    · have hs : (slashC :: (dg ++ ext)) <:+ dir ++ [slashC] ++ (dg ++ ext) :=
        ⟨dir, by simp⟩
      have hs2 : (slashC :: (dg ++ ext)) <:+ (dotC :: σ') := by
        apply suffix_of_suffix_length_le hs h
        simp only [List.length_cons] at hlt ⊢
        omega
      exact absurd (hs2.mem (List.mem_cons_self _ _)) hσslash

/-- A renamed artifact's new name cannot acquire a dotted suffix (such
as .html, .map or .json) that the old name did not have, as long as the
digest text is nonempty and dot-free. -/
theorem value_no_new_suffix (digest : Content → Str)
    (hdig : ∀ c, digest c ≠ [] ∧ dotC ∉ digest c)
    (σ' : Str) (hσslash : slashC ∉ dotC :: σ')
    (o n : Str) (c : Content)
    (hn : n = joinPath (dirname o) (digest c ++ extname o))
    (ho : ¬ (dotC :: σ') <:+ o) : ¬ (dotC :: σ') <:+ n := by
  intro hsuf
  rw [hn] at hsuf
  have hee := ext_eq_of_suffix_join (dirname o) (digest c) (extname o) σ'
    (hdig c).1 (hdig c).2 hσslash (extname_shape o) hsuf
  exact ho (hee ▸ extname_suffix o)

theorem endsW_eq_false_iff (s t : Str) : endsW s t = false ↔ ¬ t <:+ s := by
  simp [endsW]

theorem endsW_eq_true_iff (s t : Str) : endsW s t = true ↔ t <:+ s := by
  simp [endsW]

/-- A markup name is never classified as a manifest. -/
theorem html_not_manifest (f : Str) (h : endsW f (".html").data = true) :
    isManifestName f = false := by
  unfold isManifestName
  have hj : endsW f (".json").data = false := by
    by_contra hc
    have hc' : (".json").data <:+ f := by
      rcases Bool.eq_false_or_eq_true (endsW f (".json").data) with hh | hh
      · exact (endsW_eq_true_iff f ((".json").data)).mp hh
      · exact absurd hh hc
    have hh : (".html").data <:+ f := (endsW_eq_true_iff _ _).mp h
    have heq := suffix_eq_of_length hh hc' (by decide)
    exact absurd heq (by decide)
  simp [hj]

/-- Rename-map values never end in .html: the digest base keeps only
the original extension, and markup files are never renamed. -/
theorem fm_values_not_html (digest : Content → Str) (b : Bundle)
    (hnd : (keysA b).Nodup)
    (hdig : ∀ c, digest c ≠ [] ∧ dotC ∉ digest c) :
    ∀ e ∈ (generateBundle digest b).2, endsW e.2 (".html").data = false := by
  intro e he
  obtain ⟨c, hc, hh, _⟩ := (generateBundle_loop_char digest b hnd).2.1 e he
  rw [endsW_eq_false_iff]
  have hrepr : (".html").data = dotC :: ("html").data := by decide
  rw [hrepr]
  apply value_no_new_suffix digest hdig ("html").data (by decide) e.1 e.2 c hc
  rw [← hrepr]
  exact (endsW_eq_false_iff _ _).mp hh

/-- Claim C2: a markup (.html) entry document keeps its name through
the whole in-memory phase: it is never added to the rename map, and it
remains present under its original key, its content having passed
through the reference rewriter with the rename-map entries recorded
before its turn. -/
theorem html_entry_preserved (digest : Content → Str) (b : Bundle)
    (hnd : (keysA b).Nodup)
    (hdig : ∀ c, digest c ≠ [] ∧ dotC ∉ digest c)
    (f : Str) (hf : f ∈ keysA b) (hhtml : endsW f (".html").data = true) :
    (∀ n, (f, n) ∉ (generateBundle digest b).2) ∧
    ∃ item₀, getA b f = some item₀ ∧
      getA (generateBundle digest b).1 f =
        some (rewriteItem
          (fmSeen [] (generateBundle digest b).2 (regsOf b) f) item₀).1 := by
  obtain ⟨hsubl, hshape, hbnd, hframe, hfile⟩ :=
    generateBundle_loop_char digest b hnd
  have hvf : ∀ e ∈ (generateBundle digest b).2, e.2 ≠ f := by
    intro e he heq
    have := fm_values_not_html digest b hnd hdig e he
    rw [heq, hhtml] at this
    cases this
  constructor
  · intro n hmem
    obtain ⟨c, _, hh, _⟩ := hshape (f, n) hmem
    rw [hhtml] at hh
    cases hh
  · have hreg : f ∈ regsOf b :=
      (mem_regsOf b hnd f).mpr ⟨hf, html_not_manifest f hhtml⟩
    obtain ⟨item₀, hitem, _, _, h3, _, _⟩ := hfile f hreg hvf
    refine ⟨item₀, hitem, ?_⟩
    have hnotman : f ∉ mansOf b := by
      intro hmem
      have := ((mem_mansOf b hnd f).mp hmem).2
      rw [html_not_manifest f hhtml] at this
      cases this
    rw [generateBundle_eq]
    rw [manifestFold_frame ((processRegulars digest (b, []) (regsOf b)).2) f
      (mansOf b) hnotman
      (mapPass (processRegulars digest (b, []) (regsOf b)).1
        (processRegulars digest (b, []) (regsOf b)).2)]
    rw [mapPass_frame ((processRegulars digest (b, []) (regsOf b)).2) f hvf
      (processRegulars digest (b, []) (regsOf b)).1]
    exact h3 hhtml

/-- A constant digest used by concrete witnesses. -/
def dgW2 : Content → Str := fun _ => ("bafkreiw").data

theorem dgW2_ok : ∀ c, dgW2 c ≠ [] ∧ dotC ∉ dgW2 c := by
  intro c
  unfold dgW2
  exact ⟨by decide, by decide⟩

/-- Witness for C2: a concrete bundle with a markup entry referencing a
script; the entry keeps its name and its content is rewritten to the
script's digest name. -/
theorem html_entry_preserved_witness :
    (∀ n, ((("index.html").data, n)) ∉
      (generateBundle dgW2
        [(("index.html").data,
          Item.asset (("index.html").data) (.str (("src=main.js").data))),
         (("main.js").data,
          Item.chunk (("main.js").data) (("code1").data) [] [] [] [])]).2) ∧
    ∃ item₀,
      getA [(("index.html").data,
          Item.asset (("index.html").data) (.str (("src=main.js").data))),
         (("main.js").data,
          Item.chunk (("main.js").data) (("code1").data) [] [] [] [])]
        (("index.html").data) = some item₀ ∧
      getA (generateBundle dgW2
        [(("index.html").data,
          Item.asset (("index.html").data) (.str (("src=main.js").data))),
         (("main.js").data,
          Item.chunk (("main.js").data) (("code1").data) [] [] [] [])]).1
        (("index.html").data) =
        some (rewriteItem
          (fmSeen []
            (generateBundle dgW2
              [(("index.html").data,
                Item.asset (("index.html").data) (.str (("src=main.js").data))),
               (("main.js").data,
                Item.chunk (("main.js").data) (("code1").data) [] [] [] [])]).2
            (regsOf
              [(("index.html").data,
                Item.asset (("index.html").data) (.str (("src=main.js").data))),
               (("main.js").data,
                Item.chunk (("main.js").data) (("code1").data) [] [] [] [])])
            (("index.html").data)) item₀).1 :=
  html_entry_preserved dgW2 _ (by decide)
    dgW2_ok (("index.html").data)
    (by decide) (by decide)

/-- Claim C5: for every renameable (non-markup, non-manifest) artifact f
of the output set, the Planner digests f's content as already rewritten
by the rename-map entries recorded before f's turn, the digest-derived
name is f's directory joined with the digest followed by f's extension
(extension-stripped base name replaced by the digest), any rename-map
entry for f carries exactly that name, the entry exists precisely when
that name differs from f, and when it does not differ the artifact stays
in place with its rewritten content. -/
theorem planner_rename_formula (digest : Content → Str) (b : Bundle)
    (hnd : (keysA b).Nodup)
    (hfresh : ∀ e ∈ (generateBundle digest b).2, e.2 ∉ keysA b)
    (f : Str) (hf : f ∈ keysA b)
    (hman : isManifestName f = false)
    (hhtml : endsW f (".html").data = false) :
    ∃ item₀, getA b f = some item₀ ∧
      (∀ n', (f, n') ∈ (generateBundle digest b).2 →
        n' = joinPath (dirname f)
          (digest (rewriteItem
            (fmSeen [] (generateBundle digest b).2 (regsOf b) f) item₀).2 ++
           extname f)) ∧
      (f ∈ keysA (generateBundle digest b).2 ↔
        joinPath (dirname f)
          (digest (rewriteItem
            (fmSeen [] (generateBundle digest b).2 (regsOf b) f) item₀).2 ++
           extname f) ≠ f) ∧
      (joinPath (dirname f)
          (digest (rewriteItem
            (fmSeen [] (generateBundle digest b).2 (regsOf b) f) item₀).2 ++
           extname f) = f →
        getA (processRegulars digest (b, []) (regsOf b)).1 f =
          some (rewriteItem
            (fmSeen [] (generateBundle digest b).2 (regsOf b) f) item₀).1) := by
  obtain ⟨hsubl, hshape, hbnd, hframe, hfile⟩ :=
    generateBundle_loop_char digest b hnd
  have hreg : f ∈ regsOf b := (mem_regsOf b hnd f).mpr ⟨hf, hman⟩
  have hvf : ∀ e ∈ (generateBundle digest b).2, e.2 ≠ f := by
    intro e he heq
    exact hfresh e he (heq ▸ hf)
  obtain ⟨item₀, hitem, h1, h2, _h3, h4, _h5⟩ := hfile f hreg hvf
  refine ⟨item₀, hitem, ?_, ?_, ?_⟩
  · intro n' hn'
    exact h1 n' hn'
  · simpa [newNameOf, hhtml] using h2
  · intro heq
    exact h4 hhtml heq

/-- A concrete single-chunk bundle used by the planner witness. -/
def bW5 : Bundle :=
  [(("a.js").data, Item.chunk (("a.js").data) (("code1").data) [] [] [] [])]

/-- Witness for C5: in a concrete bundle the chunk a.js is renamed to
the digest-derived name bafkreiw.js, with exactly the stated rename-map
entry. -/
theorem planner_rename_formula_witness :
    ∃ item₀, getA bW5 (("a.js").data) = some item₀ ∧
      (∀ n', ((("a.js").data), n') ∈ (generateBundle dgW2 bW5).2 →
        n' = joinPath (dirname (("a.js").data))
          (dgW2 (rewriteItem
            (fmSeen [] (generateBundle dgW2 bW5).2 (regsOf bW5)
              (("a.js").data)) item₀).2 ++
           extname (("a.js").data))) ∧
      ((("a.js").data) ∈ keysA (generateBundle dgW2 bW5).2 ↔
        joinPath (dirname (("a.js").data))
          (dgW2 (rewriteItem
            (fmSeen [] (generateBundle dgW2 bW5).2 (regsOf bW5)
              (("a.js").data)) item₀).2 ++
           extname (("a.js").data)) ≠ (("a.js").data)) ∧
      (joinPath (dirname (("a.js").data))
          (dgW2 (rewriteItem
            (fmSeen [] (generateBundle dgW2 bW5).2 (regsOf bW5)
              (("a.js").data)) item₀).2 ++
           extname (("a.js").data)) = (("a.js").data) →
        getA (processRegulars dgW2 (bW5, []) (regsOf bW5)).1 (("a.js").data) =
          some (rewriteItem
            (fmSeen [] (generateBundle dgW2 bW5).2 (regsOf bW5)
              (("a.js").data)) item₀).1) :=
  planner_rename_formula dgW2 bW5 (by decide) (by decide)
    (("a.js").data) (by decide) (by decide) (by decide)

/-- The content an artifact presents to the digest function: its content
after the rewrites already applied to it at its turn of the loop. -/
def digestedContentOf (digest : Content → Str) (b : Bundle) (f : Str) :
    Option Content :=
  (getA b f).map (fun item₀ =>
    (rewriteItem (fmSeen [] (generateBundle digest b).2 (regsOf b) f) item₀).2)

/-- Claim C4: two renamed artifacts whose contents are identical at the
moment each is digested receive final names identical modulo directory
and extension: both names are built from one shared digest text, and
when the directories and extensions also agree the two final names
coincide (so a collision of computed names is not an error — both old
names map to the identical digest-derived name). -/
theorem identical_content_same_name (digest : Content → Str) (b : Bundle)
    (hnd : (keysA b).Nodup)
    (hfresh : ∀ e ∈ (generateBundle digest b).2, e.2 ∉ keysA b)
    (f g nf ng : Str)
    (hmf : (f, nf) ∈ (generateBundle digest b).2)
    (hmg : (g, ng) ∈ (generateBundle digest b).2)
    (hc : digestedContentOf digest b f = digestedContentOf digest b g) :
    ∃ D, nf = joinPath (dirname f) (D ++ extname f) ∧
      ng = joinPath (dirname g) (D ++ extname g) ∧
      (dirname f = dirname g → extname f = extname g → nf = ng) := by
  obtain ⟨hsubl, hshape, hbnd, hframe, hfile⟩ :=
    generateBundle_loop_char digest b hnd
  have hfreg : f ∈ regsOf b := hsubl.subset (List.mem_map_of_mem Prod.fst hmf)
  have hgreg : g ∈ regsOf b := hsubl.subset (List.mem_map_of_mem Prod.fst hmg)
  have hfb : f ∈ keysA b := ((mem_regsOf b hnd f).mp hfreg).1
  have hgb : g ∈ keysA b := ((mem_regsOf b hnd g).mp hgreg).1
  have hvf : ∀ e ∈ (generateBundle digest b).2, e.2 ≠ f :=
    fun e he heq => hfresh e he (heq ▸ hfb)
  have hvg : ∀ e ∈ (generateBundle digest b).2, e.2 ≠ g :=
    fun e he heq => hfresh e he (heq ▸ hgb)
  obtain ⟨itf, hitf, h1f, -, -, -, -⟩ := hfile f hfreg hvf
  obtain ⟨itg, hitg, h1g, -, -, -, -⟩ := hfile g hgreg hvg
  have hnf := h1f nf hmf
  have hng := h1g ng hmg
  have hCeq : (rewriteItem
      (fmSeen [] (generateBundle digest b).2 (regsOf b) f) itf).2 =
      (rewriteItem
        (fmSeen [] (generateBundle digest b).2 (regsOf b) g) itg).2 := by
    unfold digestedContentOf at hc
    rw [hitf, hitg] at hc
    simpa using hc
  refine ⟨digest (rewriteItem
    (fmSeen [] (generateBundle digest b).2 (regsOf b) f) itf).2, ?_, ?_, ?_⟩
  · simpa [newNameOf] using hnf
  · rw [hng]
    simp [newNameOf, hCeq]
  · intro hdir hext
    rw [hnf, hng]
    simp [newNameOf, hCeq, hdir, hext]

/-- A concrete bundle with two byte-identical chunks, used by the C4
witness. -/
def bW4 : Bundle :=
  [(("a.js").data, Item.chunk (("a.js").data) (("same").data) [] [] [] []),
   (("b.js").data, Item.chunk (("b.js").data) (("same").data) [] [] [] [])]

/-- Witness for C4: two byte-identical chunks in the same directory with
the same extension end up with the same digest-derived final name. -/
theorem identical_content_same_name_witness :
    ∃ D, ("bafkreiw.js").data =
        joinPath (dirname (("a.js").data)) (D ++ extname (("a.js").data)) ∧
      ("bafkreiw.js").data =
        joinPath (dirname (("b.js").data)) (D ++ extname (("b.js").data)) ∧
      (dirname (("a.js").data) = dirname (("b.js").data) →
        extname (("a.js").data) = extname (("b.js").data) →
        ("bafkreiw.js").data = ("bafkreiw.js").data) :=
  identical_content_same_name dgW2 bW4 (by decide) (by decide)
    (("a.js").data) (("b.js").data)
    (("bafkreiw.js").data) (("bafkreiw.js").data)
    (by decide) (by decide) (by decide)

/-- Claim C10: an asset artifact holding raw bytes goes through the
whole in-memory phase with its content byte-for-byte unchanged — the
rewriter, the source-map pass and the manifest pass only touch textual
content — and only its name may change: if it is not renamed its entry
is literally unchanged, and if the rename map sends it to n it is found
under n with the same bytes and only the fileName field updated. -/
theorem bytes_asset_preserved (digest : Content → Str) (b : Bundle)
    (hnd : (keysA b).Nodup)
    (hfresh : ∀ e ∈ (generateBundle digest b).2, e.2 ∉ keysA b)
    (hvnd : ((generateBundle digest b).2.map Prod.snd).Nodup)
    (f fn : Str) (bs : List Nat)
    (hitem : getA b f = some (.asset fn (.bytes bs))) :
    (f ∉ keysA (generateBundle digest b).2 →
      getA (generateBundle digest b).1 f = some (.asset fn (.bytes bs))) ∧
    (∀ n, (f, n) ∈ (generateBundle digest b).2 →
      getA (generateBundle digest b).1 n = some (.asset n (.bytes bs))) := by
  obtain ⟨hsubl, hshape, hbnd, hframe, hfile⟩ :=
    generateBundle_loop_char digest b hnd
  have hfb : f ∈ keysA b :=
    List.mem_map_of_mem Prod.fst (getA_mem b f _ hitem)
  have hvf : ∀ e ∈ (generateBundle digest b).2, e.2 ≠ f :=
    fun e he heq => hfresh e he (heq ▸ hfb)
  have hcarry : ∀ (g gn : Str),
      getA (processRegulars digest (b, []) (regsOf b)).1 g =
        some (.asset gn (.bytes bs)) →
      getA (generateBundle digest b).1 g = some (.asset gn (.bytes bs)) := by
    intro g gn hg
    rw [generateBundle_eq]
    apply manifestFold_bytes_frame
    show getA (((processRegulars digest (b, []) (regsOf b)).2).foldl
      (mapPassStep (processRegulars digest (b, []) (regsOf b)).2)
      (processRegulars digest (b, []) (regsOf b)).1) g = _
    exact mapPass_bytes_frame _ g gn bs _ _ hg
  constructor
  · intro hnr
    by_cases hman : isManifestName f = true
    · have hfnr : f ∉ regsOf b := by
        intro hmem
        have := ((mem_regsOf b hnd f).mp hmem).2
        rw [hman] at this
        cases this
      have := hframe f hfnr hvf
      rw [hitem] at this
      exact hcarry f fn this
    · have hreg : f ∈ regsOf b :=
        (mem_regsOf b hnd f).mpr ⟨hfb, Bool.eq_false_iff.mpr hman⟩
      obtain ⟨item₀, hit, h1, h2, h3, h4, h5⟩ := hfile f hreg hvf
      rw [hitem] at hit
      cases Option.some_inj.mp hit
      have hre : rewriteItem
          (fmSeen [] (generateBundle digest b).2 (regsOf b) f)
          (Item.asset fn (.bytes bs)) =
          (Item.asset fn (.bytes bs), .bytes bs) := rfl
      rcases Bool.eq_false_or_eq_true (endsW f (".html").data) with hh | hh
      · have := h3 hh
        rw [hre] at this
        exact hcarry f fn this
      · have hnf : newNameOf digest
            (fmSeen [] (generateBundle digest b).2 (regsOf b) f) f
            (Item.asset fn (.bytes bs)) = f := by
          by_contra hne
          exact hnr (h2.mpr ⟨hh, hne⟩)
        have := h4 hh hnf
        rw [hre] at this
        exact hcarry f fn this
  · intro n hmem
    have hreg : f ∈ regsOf b :=
      hsubl.subset (List.mem_map_of_mem Prod.fst hmem)
    obtain ⟨item₀, hit, h1, h2, h3, h4, h5⟩ := hfile f hreg hvf
    rw [hitem] at hit
    cases Option.some_inj.mp hit
    have hre : rewriteItem
        (fmSeen [] (generateBundle digest b).2 (regsOf b) f)
        (Item.asset fn (.bytes bs)) =
        (Item.asset fn (.bytes bs), .bytes bs) := rfl
    have hkey : f ∈ keysA (generateBundle digest b).2 :=
      List.mem_map_of_mem Prod.fst hmem
    obtain ⟨hh, hne⟩ := h2.mp hkey
    have hn : n = newNameOf digest
        (fmSeen [] (generateBundle digest b).2 (regsOf b) f) f
        (Item.asset fn (.bytes bs)) := h1 n hmem
    have hnreg : newNameOf digest
        (fmSeen [] (generateBundle digest b).2 (regsOf b) f) f
        (Item.asset fn (.bytes bs)) ∉ regsOf b := by
      rw [← hn]
      intro hmem2
      exact hfresh (f, n) hmem ((mem_regsOf b hnd n).mp hmem2).1
    have huniq : ∀ e ∈ (generateBundle digest b).2, e.1 ≠ f →
        e.2 ≠ newNameOf digest
          (fmSeen [] (generateBundle digest b).2 (regsOf b) f) f
          (Item.asset fn (.bytes bs)) := by
      intro e he hef hev
      have : e = (f, n) :=
        List.inj_on_of_nodup_map hvnd he hmem (by rw [hev, ← hn])
      exact hef (by rw [this])
    have := h5 hh hne hnreg huniq
    rw [hre] at this
    rw [hn]
    exact hcarry _ _ this

/-- A concrete bundle holding one raw-bytes asset, used by the C10
witness. -/
def bW10 : Bundle :=
  [(("img.png").data, Item.asset (("img.png").data) (.bytes [1, 2, 3]))]

/-- Witness for C10: the byte asset img.png is renamed to the
digest-derived name with its bytes intact, and only the name changed. -/
theorem bytes_asset_preserved_witness :
    ((("img.png").data) ∉ keysA (generateBundle dgW2 bW10).2 →
      getA (generateBundle dgW2 bW10).1 (("img.png").data) =
        some (.asset (("img.png").data) (.bytes [1, 2, 3]))) ∧
    (∀ n, ((("img.png").data), n) ∈ (generateBundle dgW2 bW10).2 →
      getA (generateBundle dgW2 bW10).1 n = some (.asset n (.bytes [1, 2, 3]))) :=
  bytes_asset_preserved dgW2 bW10 (by decide) (by decide) (by decide)
    (("img.png").data) (("img.png").data) [1, 2, 3] (by decide)

theorem setA_head {α : Type} (k : Str) (v v2 : α) (l : List (Str × α)) :
    setA ((k, v) :: l) k v2 = (k, v2) :: l := by
  simp [setA]

/-- The two-artifact bundle with byte-identical chunk contents used for
the duplicate-content analysis. -/
def c9Bundle (c0 : Str) : Bundle :=
  [(("a.js").data, Item.chunk (("a.js").data) c0 [] [] [] []),
   (("b.js").data, Item.chunk (("b.js").data) c0 [] [] [] [])]

/-- Claim C9: when two distinct same-directory same-extension artifacts
hold byte-identical content (and the shared digest-derived name is fresh,
the content not mentioning the first name so both digests see identical
bytes), renaming the later-processed artifact overwrites the earlier
one's entry under the shared digest-derived key: the in-memory phase ends
with exactly one artifact under that name while the rename map sends both
old names to it. -/
theorem duplicate_content_overwrites (digest : Content → Str) (c0 D : Str)
    (hD : digest (.str c0) = D)
    (hno : ¬ (("a.js").data <:+: c0))
    (hDa : D ++ (".js").data ≠ ("a.js").data)
    (hDb : D ++ (".js").data ≠ ("b.js").data) :
    generateBundle digest (c9Bundle c0) =
      ([(D ++ (".js").data,
         Item.chunk (D ++ (".js").data) c0 [] [] [] [])],
       [((("a.js").data), D ++ (".js").data),
        ((("b.js").data), D ++ (".js").data)]) := by
  have hNa : newNameOf digest [] (("a.js").data)
      (Item.chunk (("a.js").data) c0 [] [] [] []) = D ++ (".js").data := by
    show joinPath (dirname (("a.js").data))
      (digest (.str c0) ++ extname (("a.js").data)) = D ++ (".js").data
    rw [hD]
    show joinPath [dotC] (D ++ (".js").data) = D ++ (".js").data
    simp [joinPath]
  have hApp : applyMap [((("a.js").data), D ++ (".js").data)] c0 = c0 := by
    show replaceAll (basename (("a.js").data))
      (basename (D ++ (".js").data)) c0 = c0
    apply replaceAll_not_infix
    show ¬ (("a.js").data <:+: c0)
    exact hno
  have hRb1 : (rewriteItem [((("a.js").data), D ++ (".js").data)]
      (Item.chunk (("b.js").data) c0 [] [] [] [])).1 =
      Item.chunk (("b.js").data) c0 [] [] [] [] := by
    show Item.chunk (("b.js").data)
      (applyMap [((("a.js").data), D ++ (".js").data)] c0) [] [] [] [] = _
    rw [hApp]
  have hNb : newNameOf digest [((("a.js").data), D ++ (".js").data)]
      (("b.js").data) (Item.chunk (("b.js").data) c0 [] [] [] []) =
      D ++ (".js").data := by
    show joinPath (dirname (("b.js").data))
      (digest (.str (applyMap [((("a.js").data), D ++ (".js").data)] c0)) ++
        extname (("b.js").data)) = D ++ (".js").data
    rw [hApp, hD]
    show joinPath [dotC] (D ++ (".js").data) = D ++ (".js").data
    simp [joinPath]
  have h1 : processRegular digest ((c9Bundle c0), []) (("a.js").data) =
      ([((("b.js").data), Item.chunk (("b.js").data) c0 [] [] [] []),
        (D ++ (".js").data,
          Item.chunk (D ++ (".js").data) c0 [] [] [] [])],
       [((("a.js").data), D ++ (".js").data)]) := by
    rw [processRegular_some digest (c9Bundle c0) [] (("a.js").data)
      (Item.chunk (("a.js").data) c0 [] [] [] []) rfl]
    rw [if_neg (show ¬ (endsW (("a.js").data) (".html").data = true) from
      by decide)]
    rw [hNa]
    rw [if_neg hDa]
    show (setA [((("b.js").data), Item.chunk (("b.js").data) c0 [] [] [] [])]
        (D ++ (".js").data)
        (Item.chunk (D ++ (".js").data) c0 [] [] [] []),
      [((("a.js").data), D ++ (".js").data)]) = _
    rw [setA_not_mem_append _ _ _ (by simpa [keysA] using hDb)]
    rfl
  have h2 : processRegular digest
      (([((("b.js").data), Item.chunk (("b.js").data) c0 [] [] [] []),
        (D ++ (".js").data,
          Item.chunk (D ++ (".js").data) c0 [] [] [] [])],
       [((("a.js").data), D ++ (".js").data)])) (("b.js").data) =
      ([(D ++ (".js").data,
         Item.chunk (D ++ (".js").data) c0 [] [] [] [])],
       [((("a.js").data), D ++ (".js").data),
        ((("b.js").data), D ++ (".js").data)]) := by
    rw [processRegular_some digest
      [((("b.js").data), Item.chunk (("b.js").data) c0 [] [] [] []),
       (D ++ (".js").data, Item.chunk (D ++ (".js").data) c0 [] [] [] [])]
      [((("a.js").data), D ++ (".js").data)]
      (("b.js").data) (Item.chunk (("b.js").data) c0 [] [] [] []) rfl]
    rw [if_neg (show ¬ (endsW (("b.js").data) (".html").data = true) from
      by decide)]
    rw [hNb]
    rw [if_neg hDb]
    rw [hRb1]
    show (setA [(D ++ (".js").data,
        Item.chunk (D ++ (".js").data) c0 [] [] [] [])]
        (D ++ (".js").data)
        (Item.chunk (D ++ (".js").data) c0 [] [] [] []),
      [((("a.js").data), D ++ (".js").data),
       ((("b.js").data), D ++ (".js").data)]) = _
    rw [setA_head]
  have hPR : processRegulars digest ((c9Bundle c0), [])
      (regsOf (c9Bundle c0)) =
      ([(D ++ (".js").data,
         Item.chunk (D ++ (".js").data) c0 [] [] [] [])],
       [((("a.js").data), D ++ (".js").data),
        ((("b.js").data), D ++ (".js").data)]) := by
    rw [show regsOf (c9Bundle c0) =
      [(("a.js").data), (("b.js").data)] from rfl]
    show processRegular digest
      (processRegular digest ((c9Bundle c0), []) (("a.js").data))
      (("b.js").data) = _
    rw [h1, h2]
  rw [generateBundle_eq, hPR]
  rfl

/-- Witness for C9: with a concrete constant digest, both a.js and b.js
map to bafkreiw.js, whose single surviving entry is the later-processed
b.js artifact. -/
theorem duplicate_content_overwrites_witness :
    generateBundle dgW2 (c9Bundle (("same").data)) =
      ([((("bafkreiw").data) ++ (".js").data,
         Item.chunk ((("bafkreiw").data) ++ (".js").data)
           (("same").data) [] [] [] [])],
       [((("a.js").data), (("bafkreiw").data) ++ (".js").data),
        ((("b.js").data), (("bafkreiw").data) ++ (".js").data)]) :=
  duplicate_content_overwrites dgW2 (("same").data) (("bafkreiw").data)
    (by decide) (by decide) (by decide) (by decide)

/-- The constant digest used in the manifest stale-key scenario; its
value is chosen so that the old name main.js is not a substring of the
new name. -/
def dgC6 : Content → Str := fun _ => ("bafkreimainx").data

/-- A bundle holding one renameable chunk and a Vite manifest recording
it under its own name as key and as the file value. -/
def bundC6 : Bundle :=
  [(("main.js").data,
    Item.chunk (("main.js").data) (("console.log(1)").data) [] [] [] []),
   ((".vite/manifest.json").data,
    Item.asset ((".vite/manifest.json").data)
      (.str (jstringifyC (Json.obj (JFields.cons (("main.js").data)
        (Json.obj (JFields.cons (("file").data)
          (Json.str (("main.js").data)) JFields.nil)) JFields.nil)))))]

/-- Claim C6 (code bug): main.js is renamed and the manifest is never
renamed and its serialized content does contain the updated file value,
but contrary to the claim the stale value "file": "main.js" is still
present: the per-entry Object.assign merge adds the rewritten key
without deleting the original key, so the manifest retains the old entry
verbatim. -/
theorem manifest_stale_key_bug :
    ((("main.js").data, ("bafkreimainx.js").data) ∈
      (generateBundle dgC6 bundC6).2) ∧
    ((".vite/manifest.json").data) ∉ keysA (generateBundle dgC6 bundC6).2 ∧
    containsSub
      (sourceTextOf (generateBundle dgC6 bundC6).1
        ((".vite/manifest.json").data))
      (("\"file\": \"bafkreimainx.js\"").data) = true ∧
    containsSub
      (sourceTextOf (generateBundle dgC6 bundC6).1
        ((".vite/manifest.json").data))
      (("\"file\": \"main.js\"").data) = true := by
  set_option maxRecDepth 10000 in decide

/-- A content-directed digest for the cyclic-dependency scenario. -/
def dgCE : Content → Str := fun c =>
  match c with
  | .str s => if s = ("use a.js").data then ("bafkreib").data
              else ("bafkreia").data
  | _ => ("bafkreio").data

/-- Two chunks referencing each other (a dependency cycle). -/
def ceBundle : Bundle :=
  [(("a.js").data,
    Item.chunk (("a.js").data) (("use b.js").data) [("b.js").data] [] [] []),
   (("b.js").data,
    Item.chunk (("b.js").data) (("use a.js").data) [("a.js").data] [] [] [])]

/-- Counterexample to claim C3 as stated: in a dependency cycle the
artifact processed first is rewritten before its referenced partner is
renamed, so after the in-memory phase the renamed artifact bafkreib.js
still contains the pre-rename base name a.js of an artifact that was
actually renamed. -/
theorem stale_base_name_counterexample :
    ((("a.js").data, ("bafkreia.js").data) ∈
      (generateBundle dgCE ceBundle).2) ∧
    getA (generateBundle dgCE ceBundle).1 (("bafkreib.js").data) =
      some (Item.chunk (("bafkreib.js").data) (("use a.js").data)
        [("a.js").data] [] [] []) ∧
    containsSub (("use a.js").data) (basename (("a.js").data)) = true := by
  set_option maxRecDepth 10000 in decide

theorem itemText_withName (it : Item) (n : Str) :
    itemText (withName it n) = itemText it := by
  cases it with
  | asset fn src => cases src <;> rfl
  | chunk fn code im dyn ia ic => rfl

theorem rewriteItem_text (fm : List (Str × Str)) (item₀ : Item) (t : Str)
    (h : itemText (rewriteItem fm item₀).1 = some t) :
    ∃ t₀, t = applyMap fm t₀ := by
  cases item₀ with
  | asset fn src =>
    cases src with
    | str s =>
      refine ⟨s, ?_⟩
      simp only [rewriteItem, itemText] at h
      exact (Option.some_inj.mp h).symm
    | bytes bs =>
      simp only [rewriteItem, itemText] at h
      cases h
  | chunk fn code im dyn ia ic =>
    refine ⟨code, ?_⟩
    simp only [rewriteItem, itemText] at h
    exact (Option.some_inj.mp h).symm

/-- Claim C3, corrected: the unconditional claim fails on dependency
cycles (see the counterexample); what holds is the per-file guarantee
restricted to names renamed before the file's turn.  If o was renamed
strictly before f's turn in the processing order and the base name of o
is replacement-safe against every recorded new name, then the artifact
produced from f (whether left in place or moved to its digest name)
carries no occurrence of o's base name in its textual content after the
whole in-memory phase. -/
theorem no_stale_after_rename (digest : Content → Str) (b : Bundle)
    (hnd : (keysA b).Nodup)
    (hfresh : ∀ e ∈ (generateBundle digest b).2, e.2 ∉ keysA b)
    (hvnd : ((generateBundle digest b).2.map Prod.snd).Nodup)
    (f o nn : Str) (hf : f ∈ regsOf b)
    (ho : (o, nn) ∈ fmUpTo (generateBundle digest b).2
      ((regsOf b).takeWhile (fun g => g ≠ f)))
    (hsafe : ∀ e ∈ (generateBundle digest b).2,
      SafeRepl (basename o) (basename e.2)) :
    ∀ g, ((f ∉ keysA (generateBundle digest b).2 ∧ g = f) ∨
        (f, g) ∈ (generateBundle digest b).2) →
      ∀ item t, getA (generateBundle digest b).1 g = some item →
        itemText item = some t → ¬ basename o <:+: t := by
  obtain ⟨hsubl, hshape, hbnd, hframe, hfile⟩ :=
    generateBundle_loop_char digest b hnd
  have hfb : f ∈ keysA b := ((mem_regsOf b hnd f).mp hf).1
  have hvf : ∀ e ∈ (generateBundle digest b).2, e.2 ≠ f :=
    fun e he heq => hfresh e he (heq ▸ hfb)
  obtain ⟨item₀, hit, h1, h2, h3, h4, h5⟩ := hfile f hf hvf
  have hoAt : (o, nn) ∈ fmSeen [] (generateBundle digest b).2 (regsOf b) f := by
    unfold fmSeen
    simpa using ho
  have hod : (o, nn) ∈ (generateBundle digest b).2 :=
    List.mem_of_mem_filter ho
  have hkill : ∀ t₀, ¬ basename o <:+:
      applyMap (fmSeen [] (generateBundle digest b).2 (regsOf b) f) t₀ := by
    intro t₀
    rw [applyMap_eq_applyPairs]
    have hmemp : (basename o, basename nn) ∈
        (fmSeen [] (generateBundle digest b).2 (regsOf b) f).map
          (fun e => (basename e.1, basename e.2)) :=
      List.mem_map_of_mem _ hoAt
    obtain ⟨pre, post, hsplit⟩ := List.append_of_mem hmemp
    rw [hsplit]
    apply not_infix_applyPairs_of_mem
    · exact hsafe (o, nn) hod
    · intro e he
      have hemem : e ∈
          (fmSeen [] (generateBundle digest b).2 (regsOf b) f).map
            (fun e => (basename e.1, basename e.2)) := by
        rw [hsplit]
        exact List.mem_append_right _ (List.mem_cons_of_mem _ he)
      obtain ⟨e2, he2, heq⟩ := List.mem_map.mp hemem
      have he2d : e2 ∈ (generateBundle digest b).2 := by
        have : e2 ∈ fmUpTo (generateBundle digest b).2
            ((regsOf b).takeWhile (fun g => g ≠ f)) := by
          simpa [fmSeen] using he2
        exact List.mem_of_mem_filter this
      rw [← heq]
      exact hsafe e2 he2d
  intro g hcond
  have hgman : g ∉ mansOf b := by
    rcases hcond with ⟨-, rfl⟩ | hmem
    · intro hmem2
      have hm := ((mem_mansOf b hnd g).mp hmem2).2
      have hr := ((mem_regsOf b hnd g).mp hf).2
      rw [hr] at hm
      cases hm
    · intro hmem2
      exact hfresh (f, g) hmem ((mem_mansOf b hnd g).mp hmem2).1
  have hstart : ∀ item t,
      getA (processRegulars digest (b, []) (regsOf b)).1 g = some item →
      itemText item = some t → ¬ basename o <:+: t := by
    rcases hcond with ⟨hnr, rfl⟩ | hmem
    · rcases Bool.eq_false_or_eq_true (endsW g (".html").data) with hh | hh
      · intro item t hitem htext
        rw [h3 hh] at hitem
        cases Option.some_inj.mp hitem
        obtain ⟨t₀, rfl⟩ := rewriteItem_text _ _ _ htext
        exact hkill t₀
      · have hnf : newNameOf digest
            (fmSeen [] (generateBundle digest b).2 (regsOf b) g) g item₀ =
            g := by
          by_contra hneq
          exact hnr (h2.mpr ⟨hh, hneq⟩)
        intro item t hitem htext
        rw [h4 hh hnf] at hitem
        cases Option.some_inj.mp hitem
        obtain ⟨t₀, rfl⟩ := rewriteItem_text _ _ _ htext
        exact hkill t₀
    · have hkey : f ∈ keysA (generateBundle digest b).2 :=
        List.mem_map_of_mem Prod.fst hmem
      obtain ⟨hh, hne⟩ := h2.mp hkey
      have hg : g = newNameOf digest
          (fmSeen [] (generateBundle digest b).2 (regsOf b) f) f item₀ :=
        h1 g hmem
      have hnreg : newNameOf digest
          (fmSeen [] (generateBundle digest b).2 (regsOf b) f) f item₀ ∉
          regsOf b := by
        rw [← hg]
        intro hm2
        exact hfresh (f, g) hmem ((mem_regsOf b hnd g).mp hm2).1
      have huniq : ∀ e ∈ (generateBundle digest b).2, e.1 ≠ f →
          e.2 ≠ newNameOf digest
            (fmSeen [] (generateBundle digest b).2 (regsOf b) f) f item₀ := by
        intro e he hef hev
        have : e = (f, g) :=
          List.inj_on_of_nodup_map hvnd he hmem (by rw [hev, ← hg])
        exact hef (by rw [this])
      intro item t hitem htext
      rw [hg, h5 hh hne hnreg huniq] at hitem
      cases Option.some_inj.mp hitem
      rw [itemText_withName] at htext
      obtain ⟨t₀, rfl⟩ := rewriteItem_text _ _ _ htext
      exact hkill t₀
  intro item t hitem htext
  rw [generateBundle_eq] at hitem
  rw [manifestFold_frame ((processRegulars digest (b, []) (regsOf b)).2) g
    (mansOf b) hgman
    (mapPass (processRegulars digest (b, []) (regsOf b)).1
      (processRegulars digest (b, []) (regsOf b)).2)] at hitem
  exact mapPass_infix_pres ((processRegulars digest (b, []) (regsOf b)).2)
    (basename o) ((processRegulars digest (b, []) (regsOf b)).2) hsafe
    ((processRegulars digest (b, []) (regsOf b)).1) g hstart item t hitem htext

/-- A style sheet referencing an image renamed before its turn, used by
the C3 witness. -/
def bC3w : Bundle :=
  [(("bg.png").data, Item.asset (("bg.png").data) (.str (("IMG").data))),
   (("style.css").data,
    Item.asset (("style.css").data) (.str (("url(bg.png)").data)))]

/-- Witness for C3 (corrected form): bg.png is renamed before
style.css's turn, and the renamed style artifact's content carries no
occurrence of the base name bg.png. -/
theorem no_stale_after_rename_witness :
    ¬ basename (("bg.png").data) <:+: ("url(bafkreiw.png)").data :=
  no_stale_after_rename dgW2 bC3w (by decide) (by decide) (by decide)
    (("style.css").data) (("bg.png").data) (("bafkreiw.png").data)
    (by decide) (by decide) (by decide)
    (("bafkreiw.css").data) (Or.inr (by decide))
    (Item.asset (("bafkreiw.css").data) (.str (("url(bafkreiw.png)").data)))
    (("url(bafkreiw.png)").data) (by decide) (by decide)

/-- A content-directed digest for the source-map scenario. -/
def dgC7 : Content → Str := fun c =>
  match c with
  | .str s => if s = ("file main.js").data then ("bafkreimap").data
              else ("bafkreisrc").data
  | _ => ("bafkreio").data

/-- A source map and its parent chunk, the map listed (and processed)
first. -/
def c7Bundle : Bundle :=
  [(("main.js.map").data,
    Item.asset (("main.js.map").data) (.str (("file main.js").data))),
   (("main.js").data,
    Item.chunk (("main.js").data)
      (("x sourceMappingURL=main.js.map").data) [] [] [] [])]

/-- Counterexample to claim C7 as stated: both the parent chunk and its
.map sibling are renamed, yet the map artifact's content still carries
the parent's old base name and never receives the parent's new base
name — the code updates the parent's reference to the map, not the map's
reference to the parent. -/
theorem map_sibling_direction_counterexample :
    ((("main.js").data, ("bafkreisrc.js").data) ∈
      (generateBundle dgC7 c7Bundle).2) ∧
    ((("main.js.map").data, ("bafkreimap.map").data) ∈
      (generateBundle dgC7 c7Bundle).2) ∧
    getA (generateBundle dgC7 c7Bundle).1 (("bafkreimap.map").data) =
      some (Item.asset (("bafkreimap.map").data)
        (.str (("file main.js").data))) ∧
    containsSub (("file main.js").data) (basename (("main.js").data)) =
      true ∧
    containsSub (("file main.js").data)
      (basename (("bafkreisrc.js").data)) = false := by
  set_option maxRecDepth 10000 in decide

theorem mapPassStep_target_frame (fm : List (Str × Str)) (ns : Str)
    (e : Str × Str)
    (hnt : ¬ (endsW e.1 (".map").data = true ∧
      getA fm (e.1.take (e.1.length - 4)) = some ns))
    (b : Bundle) :
    getA (mapPassStep fm b e) ns = getA b ns := by
  unfold mapPassStep
  by_cases h1 : endsW e.1 (".map").data
  · rw [if_pos h1]
    split
    · rfl
    · next ns2 heq =>
      split
      · next fn code im dyn ia ic hbn =>
        have hne : ns2 ≠ ns := by
          intro hh
          exact hnt ⟨h1, by rw [heq, hh]⟩
        exact getA_setA_ne b ns2 ns _ (fun hh => hne hh.symm)
      · rfl
  · rw [if_neg h1]

theorem mapPassFold_target_frame (fm : List (Str × Str)) (ns : Str) :
    ∀ (l : List (Str × Str)),
      (∀ e ∈ l, ¬ (endsW e.1 (".map").data = true ∧
        getA fm (e.1.take (e.1.length - 4)) = some ns)) →
      ∀ b : Bundle, getA (l.foldl (mapPassStep fm) b) ns = getA b ns := by
  intro l
  induction l with
  | nil => intro _ b; rfl
  | cons e rest ih =>
    intro hl b
    rw [List.foldl_cons,
      ih (fun e2 he2 => hl e2 (List.mem_cons_of_mem _ he2)),
      mapPassStep_target_frame fm ns e (hl e (List.mem_cons_self _ _)) b]

theorem mapPassStep_hit (fm : List (Str × Str)) (b : Bundle)
    (o n ns fn code : Str) (im dyn ia ic : List Str)
    (hmap : endsW o (".map").data = true)
    (hsrc : getA fm (o.take (o.length - 4)) = some ns)
    (hchunk : getA b ns = some (.chunk fn code im dyn ia ic)) :
    mapPassStep fm b (o, n) =
      setA b ns
        (.chunk fn (replaceAll (basename o) (basename n) code)
          im dyn ia ic) := by
  unfold mapPassStep
  simp only [hmap, if_true, hsrc, hchunk]

/-- Claim C7, corrected: the spec's direction is reversed.  When a .map
sibling entry (o, n) is in the rename map and the rename map sends its
source file name to the parent's final name ns holding a chunk, the
source-map pass updates the PARENT chunk's embedded reference: every
occurrence of the map's old base name in the parent's code is replaced by
the map's new base name.  The map artifact's own content is not touched
by this pass (see the counterexample). -/
theorem map_sibling_updates_parent (b : Bundle) (fm : List (Str × Str))
    (hknd : (fm.map Prod.fst).Nodup)
    (o n ns : Str) (ho : (o, n) ∈ fm)
    (hmap : endsW o (".map").data = true)
    (hsrc : getA fm (o.take (o.length - 4)) = some ns)
    (huniq : ∀ e ∈ fm, endsW e.1 (".map").data = true →
      getA fm (e.1.take (e.1.length - 4)) = some ns → e = (o, n))
    (fn code : Str) (im dyn ia ic : List Str)
    (hchunk : getA b ns = some (.chunk fn code im dyn ia ic)) :
    getA (mapPass b fm) ns =
      some (.chunk fn (replaceAll (basename o) (basename n) code)
        im dyn ia ic) := by
  obtain ⟨pre, post, hsplit⟩ := List.append_of_mem ho
  have hnd2 := hknd
  rw [hsplit, List.map_append, List.map_cons] at hnd2
  have hopre : o ∉ pre.map Prod.fst := by
    intro hmem
    rcases List.nodup_append.mp hnd2 with ⟨-, -, hdisj⟩
    exact hdisj hmem (List.mem_cons_self _ _)
  have hopost : o ∉ post.map Prod.fst := by
    rcases List.nodup_append.mp hnd2 with ⟨-, hcons, -⟩
    exact (List.nodup_cons.mp hcons).1
  have hnotpre : ∀ e ∈ pre, ¬ (endsW e.1 (".map").data = true ∧
      getA fm (e.1.take (e.1.length - 4)) = some ns) := by
    rintro e he ⟨h1, h2⟩
    have heo := huniq e (by rw [hsplit]; exact List.mem_append_left _ he) h1 h2
    apply hopre
    rw [← show e.1 = o from by rw [heo]]
    exact List.mem_map_of_mem Prod.fst he
  have hnotpost : ∀ e ∈ post, ¬ (endsW e.1 (".map").data = true ∧
      getA fm (e.1.take (e.1.length - 4)) = some ns) := by
    rintro e he ⟨h1, h2⟩
    have heo := huniq e
      (by rw [hsplit]
          exact List.mem_append_right _ (List.mem_cons_of_mem _ he)) h1 h2
    apply hopost
    rw [← show e.1 = o from by rw [heo]]
    exact List.mem_map_of_mem Prod.fst he
  have hb2 : getA (pre.foldl (mapPassStep fm) b) ns =
      some (.chunk fn code im dyn ia ic) := by
    rw [mapPassFold_target_frame fm ns pre hnotpre]
    exact hchunk
  show getA (List.foldl (mapPassStep fm) b fm) ns = _
  rw [show List.foldl (mapPassStep fm) b fm =
    List.foldl (mapPassStep fm) b (pre ++ (o, n) :: post) from by
      rw [← hsplit]]
  rw [List.foldl_append, List.foldl_cons]
  rw [mapPassFold_target_frame fm ns post hnotpost]
  rw [mapPassStep_hit fm (pre.foldl (mapPassStep fm) b) o n ns fn code
    im dyn ia ic hmap hsrc hb2]
  exact getA_setA_self _ _ _

/-- Witness for C7 (corrected form): the parent chunk at its final name
has its embedded main.js.map reference replaced by the map's new base
name. -/
theorem map_sibling_updates_parent_witness :
    getA (mapPass
      [(("bafkreisrc.js").data,
        Item.chunk (("bafkreisrc.js").data)
          (("x sourceMappingURL=main.js.map").data) [] [] [] [])]
      [((("main.js").data), ("bafkreisrc.js").data),
       ((("main.js.map").data), ("bafkreimap.map").data)])
      (("bafkreisrc.js").data) =
      some (.chunk (("bafkreisrc.js").data)
        (replaceAll (basename (("main.js.map").data))
          (basename (("bafkreimap.map").data))
          (("x sourceMappingURL=main.js.map").data)) [] [] [] []) :=
  map_sibling_updates_parent
    [(("bafkreisrc.js").data,
      Item.chunk (("bafkreisrc.js").data)
        (("x sourceMappingURL=main.js.map").data) [] [] [] [])]
    [((("main.js").data), ("bafkreisrc.js").data),
     ((("main.js.map").data), ("bafkreimap.map").data)]
    (by decide)
    (("main.js.map").data) (("bafkreimap.map").data) (("bafkreisrc.js").data)
    (by decide) (by decide) (by decide) (by decide)
    (("bafkreisrc.js").data) (("x sourceMappingURL=main.js.map").data)
    [] [] [] [] (by decide)
